import Mathlib

/-!
A shallow embedding of the go-lookslike core (package `lookslike`):
the path model (`pathComponent`, `Path`, rendering, `ParsePath`,
`Path.GetFrom`), the schema compiler (`Compile`, `compileMap`,
`compileSlice`, `compileIsDef`, `setupWalkObserver`), the strict
closed-schema wrapper (`Strict`) and the validator combinator
(`Compose`), together with spec-modelled definitions for the parts of
the repository that are not in the provided sources (the tree walker,
the `Results` aggregator, `IsDef.Check`, `IsEqual` and the compiled
schema evaluator).

Go dynamic values (`interface\x7b\x7d`) are embedded as the inductive
`Value`; the predicate library is external to the core, so checkers are
defunctionalized to the deep-equality checker the core itself
constructs (`IsEqual`) - named predicates such as `Is "eq" c` only wrap
a checker and a name, exactly as the source `Is` does.
-/

set_option maxRecDepth 4096

namespace lookslike

/-- One breadcrumb kind in a `Path` (source: `pathComponentType`,
`pcMapKey = 1`, `pcSliceIdx`, `pcScalar`). -/
inductive pathComponentType where
  | pcMapKey : pathComponentType
  | pcSliceIdx : pathComponentType
  | pcScalar : pathComponentType
deriving DecidableEq, Repr

export pathComponentType (pcMapKey pcSliceIdx pcScalar)

/-- One breadcrumb in a `Path` (source: `pathComponent`). The `Type`
field of the Go struct is called `Type'` here because `Type` is a Lean
keyword. `Index` is a Go `int`, embedded as `Int`. -/
structure pathComponent where
  Type' : pathComponentType
  Key : String
  Index : Int
deriving DecidableEq, Repr

/-- A path within a nested set of maps (source: `Path`). -/
abbrev Path := List pathComponent

mutual

/-- A Go dynamic value tree: the shapes the lookslike core inspects.
`vmap` embeds `Map` (`map[string]interface\x7b\x7d`) as an ordered
association list, `vslice` embeds `Slice`, `visDef` a predicate node,
`vnull` the untyped Go `nil`, and the remaining constructors the scalar
leaves used by the claims. -/
inductive Value where
  | vnull : Value
  | vint : Int → Value
  | vstr : String → Value
  | vbool : Bool → Value
  | vmap : List (String × Value) → Value
  | vslice : List Value → Value
  | visDef : IsDef → Value

/-- A named, optionally-optional predicate (source: `IsDef`, fields
`Name`, `Optional`, `Checker`). -/
inductive IsDef where
  | mk : String → Bool → Checker → IsDef

/-- The checker of an `IsDef`. The predicate library is an external
collaborator of the core; the core itself only ever constructs the
deep-equality checker (`IsEqual`), so checkers are defunctionalized to
that shape. -/
inductive Checker where
  | isEqualTo : Value → Checker

end

mutual

def Value.beq : Value → Value → Bool
  | .vnull, .vnull => true
  | .vint a, .vint b => a == b
  | .vstr a, .vstr b => a == b
  | .vbool a, .vbool b => a == b
  | .vmap a, .vmap b => Value.beqEntries a b
  | .vslice a, .vslice b => Value.beqList a b
  | .visDef a, .visDef b => Value.beqIsDef a b
  | _, _ => false
termination_by structural a => a

def Value.beqEntries : List (String × Value) → List (String × Value) → Bool
  | [], [] => true
  | (k, v) :: r, (k', v') :: r' =>
      k == k' && Value.beq v v' && Value.beqEntries r r'
  | _, _ => false
termination_by structural a => a

def Value.beqList : List Value → List Value → Bool
  | [], [] => true
  | v :: r, v' :: r' => Value.beq v v' && Value.beqList r r'
  | _, _ => false
termination_by structural a => a

def Value.beqIsDef : IsDef → IsDef → Bool
  | .mk n o c, .mk n' o' c' => n == n' && o == o' && Value.beqChecker c c'
termination_by structural a => a

def Value.beqChecker : Checker → Checker → Bool
  | .isEqualTo a, .isEqualTo b => Value.beq a b
termination_by structural a => a

end

mutual

theorem Value.beq_iff : ∀ a b : Value, Value.beq a b = true ↔ a = b
  | .vnull, b => by cases b <;> simp [Value.beq]
  | .vint a, b => by cases b <;> simp [Value.beq]
  | .vstr a, b => by cases b <;> simp [Value.beq]
  | .vbool a, b => by cases b <;> simp [Value.beq]
  | .vmap a, b => by
      cases b <;> simp [Value.beq]
      exact Value.beqEntries_iff a _
  | .vslice a, b => by
      cases b <;> simp [Value.beq]
      exact Value.beqList_iff a _
  | .visDef a, b => by
      cases b <;> simp [Value.beq]
      exact Value.beqIsDef_iff a _

theorem Value.beqEntries_iff :
    ∀ a b : List (String × Value), Value.beqEntries a b = true ↔ a = b
  | [], b => by cases b <;> simp [Value.beqEntries]
  | (k, v) :: r, b => by
      cases b with
      | nil => simp [Value.beqEntries]
      | cons hd tl =>
          obtain ⟨k', v'⟩ := hd
          simp only [Value.beqEntries, Bool.and_eq_true, beq_iff_eq,
            List.cons.injEq, Prod.mk.injEq]
          rw [Value.beq_iff v v', Value.beqEntries_iff r tl]

theorem Value.beqList_iff :
    ∀ a b : List Value, Value.beqList a b = true ↔ a = b
  | [], b => by cases b <;> simp [Value.beqList]
  | v :: r, b => by
      cases b with
      | nil => simp [Value.beqList]
      | cons hd tl =>
          simp only [Value.beqList, Bool.and_eq_true, List.cons.injEq]
          rw [Value.beq_iff v hd, Value.beqList_iff r tl]

theorem Value.beqIsDef_iff : ∀ a b : IsDef, Value.beqIsDef a b = true ↔ a = b
  | .mk n o c, .mk n' o' c' => by
      simp only [Value.beqIsDef, Bool.and_eq_true, beq_iff_eq, IsDef.mk.injEq]
      rw [Value.beqChecker_iff c c']
      all_goals tauto

theorem Value.beqChecker_iff :
    ∀ a b : Checker, Value.beqChecker a b = true ↔ a = b
  | .isEqualTo a, .isEqualTo b => by
      simp only [Value.beqChecker, Checker.isEqualTo.injEq]
      rw [Value.beq_iff a b]

end

instance : DecidableEq Value := fun a b =>
  decidable_of_iff _ (Value.beq_iff a b)

instance : DecidableEq IsDef := fun a b =>
  decidable_of_iff _ (Value.beqIsDef_iff a b)

instance : DecidableEq Checker := fun a b =>
  decidable_of_iff _ (Value.beqChecker_iff a b)

/-- Source `Path.Extend`: copy the path and add one trailing component. -/
def Path.Extend (p : Path) (pc : pathComponent) : Path := p ++ [pc]

/-- Source `Path.ExtendSlice`: add a `pcSliceIdx` component
(`pathComponent\x7bpcSliceIdx, "", index\x7d`). -/
def Path.ExtendSlice (p : Path) (index : Int) : Path :=
  p.Extend ⟨pcSliceIdx, "", index⟩

/-- Source `Path.ExtendMap`: add a `pcMapKey` component
(`pathComponent\x7bpcMapKey, key, -1\x7d`). -/
def Path.ExtendMap (p : Path) (key : String) : Path :=
  p.Extend ⟨pcMapKey, key, -1⟩

/-- Source `Path.Concat`: the receiver followed by `other`. -/
def Path.Concat (p other : Path) : Path := p ++ other

/-- Fuel-driven helper for `natDecChars`; any fuel above the number
itself yields the digits (see `natDecCharsAux_irrel`). The fuel makes
the recursion structural, so the definition computes by kernel
reduction. -/
def natDecCharsAux : Nat → Nat → List Char
  | 0, _ => []
  | fuel + 1, n =>
    if n < 10 then [Char.ofNat (48 + n)]
    else natDecCharsAux fuel (n / 10) ++ [Char.ofNat (48 + n % 10)]

/-- Decimal digits of a natural number, most significant first; the
digit characters of the `%d` format verb. -/
def natDecChars (n : Nat) : List Char := natDecCharsAux (n + 1) n

/-- The characters of the Go `%d` format of an `int`. -/
def intDecChars (i : Int) : List Char :=
  if i < 0 then '-' :: natDecChars i.natAbs else natDecChars i.toNat

/-- Source `pathComponent.String`: `fmt.Sprintf("[%d]", pc.Index)` for
slice components, `pc.Key` otherwise. -/
def pathComponent.String (pc : pathComponent) : String :=
  if pc.Type' = pcSliceIdx then ⟨'[' :: (intDecChars pc.Index ++ [']'])⟩
  else pc.Key

/-- The char-level model of `strings.Join(out, ".")`. -/
def joinDotChars : List (List Char) → List Char
  | [] => []
  | [x] => x
  | x :: y :: rest => x ++ '.' :: joinDotChars (y :: rest)

/-- Source `Path.String`: render every component and join on `"."`. -/
def Path.String (p : Path) : String :=
  ⟨joinDotChars (p.map fun pc => (pathComponent.String pc).data)⟩

/-- The char-level model of `strings.Split(in, ".")`: dot-separated
segments; the empty string yields one empty segment. -/
def splitDotChars : List Char → List (List Char)
  | [] => [[]]
  | c :: rest =>
    if c = '.' then [] :: splitDotChars rest
    else
      match splitDotChars rest with
      | [] => [[c]]
      | s :: ss => (c :: s) :: ss

/-- The leftmost match of the source regexp `arrMatcher`
(`\x5c[(\x5cd+)\x5c]`): scan for a `[`, a nonempty run of ASCII digits
and a closing `]`; on failure the scan resumes at the next character,
which is the leftmost-match rule of the Go regexp engine. Returns the
captured digit run. -/
def findBracketNumChars : List Char → Option (List Char)
  | [] => none
  | c :: rest =>
    if c = '[' then
      let ds := rest.takeWhile Char.isDigit
      if ds.length > 0 then
        match rest.drop ds.length with
        | ']' :: _ => some ds
        | _ => findBracketNumChars rest
      else findBracketNumChars rest
    else findBracketNumChars rest

/-- Value of a run of decimal digit characters. -/
def digitsVal (ds : List Char) : Nat :=
  ds.foldl (fun a c => a * 10 + (c.toNat - 48)) 0

/-- The largest Go `int` (64-bit) value. -/
def maxGoInt : Nat := 9223372036854775807

/-- `strconv.Atoi` on the digit-only captures produced by
`findBracketNumChars`: such a string parses successfully unless its
value overflows the 64-bit `int` range, in which case Atoi reports a
range error. -/
def goAtoi (ds : List Char) : Except String Int :=
  let n := digitsVal ds
  if n ≤ maxGoInt then .ok (n : Int) else .error "value out of range"

/-- The errors of `ParsePath`: `InvalidPathString` is the source error
type for empty segments and carries the whole input; `NumError` models
the error that `strconv.Atoi` returns on range overflow. Where Go
returns the partially built path next to a non-nil error, this
embedding keeps only the error. -/
inductive ParseError where
  | InvalidPathString : String → ParseError
  | NumError : String → ParseError
deriving DecidableEq, Repr

/-- One dot-separated segment of `ParsePath`: a segment containing a
bracketed digit run anywhere becomes a slice component via Atoi, any
other nonempty segment becomes a map key with `Index = -1`, and an
empty segment is an `InvalidPathString` error. -/
def parsePathPart (full : String) (part : List Char) :
    Except ParseError pathComponent :=
  match findBracketNumChars part with
  | some ds =>
    match goAtoi ds with
    | .ok n => .ok ⟨pcSliceIdx, "", n⟩
    | .error e => .error (.NumError e)
  | none =>
    if part.length > 0 then .ok ⟨pcMapKey, ⟨part⟩, -1⟩
    else .error (.InvalidPathString full)

/-- The left-to-right loop of `ParsePath`, stopping at the first bad
segment. -/
def parsePathParts (full : String) :
    List (List Char) → Except ParseError Path
  | [] => .ok []
  | part :: rest =>
    match parsePathPart full part with
    | .ok pc => (parsePathParts full rest).map (pc :: ·)
    | .error e => .error e

/-- Source `ParsePath`: split the input on `"."` and parse every
segment. -/
def ParsePath (s : String) : Except ParseError Path :=
  parsePathParts s (splitDotChars s.data)

/-- Go map indexing `converted[pc.Key]`: map keys are unique in Go, so
reading the first binding of the association list models it. -/
def lookupEntries : List (String × Value) → String → Option Value
  | [], _ => none
  | (k, v) :: rest, key => if k = key then some v else lookupEntries rest key

/-- The observable outcome of `Path.GetFrom`: either the Go code
panics, or it returns the pair `(value, exists)`. -/
inductive GetRes where
  | panics : GetRes
  | ret : Option Value → Bool → GetRes
deriving DecidableEq

/-- Source `Path.GetFrom`. Two branches of the Go code panic rather
than return: on an untyped nil node the code calls
`reflect.TypeOf(value).Kind()` where `reflect.TypeOf` yields a nil
interface, so the `Kind` call dereferences nil; and a negative slice
index passes the `pc.Index < len(converted)` bounds test, after which
the indexing expression `converted[pc.Index]` panics. Every other
unresolvable component returns `(nil, false)`. -/
def Path.GetFrom : Path → Value → GetRes
  | [], m => .ret (some m) true
  | pc :: rest, m =>
    match m with
    | .vnull => .panics
    | .vmap entries =>
      match lookupEntries entries pc.Key with
      | some v => Path.GetFrom rest v
      | none => .ret none false
    | .vslice items =>
      if h : pc.Index < (items.length : Int) then
        if hneg : pc.Index < 0 then .panics
        else Path.GetFrom rest (items.get ⟨pc.Index.toNat, by omega⟩)
      else .ret none false
    | _ => .ret none false

/-- The outcome of one checked path: pass/fail plus a message
(the per-value result type of the results package, absent from the
sources). -/
structure ValueResult where
  Valid : Bool
  Message : String
deriving DecidableEq, Repr

/-- Modelled from the spec: the Results aggregator (its file is absent
from the sources) is a mapping from rendered path string to outcome,
built by recording one outcome at a time, where later entries for the
same path overwrite earlier ones. The association list keeps insertion
order for the ordered iteration the spec requires. -/
structure Results where
  Fields : List (String × ValueResult)
deriving DecidableEq

/-- Modelled from the spec: a fresh empty report. -/
def NewResults : Results := ⟨[]⟩

/-- Modelled from the spec: record keyed by rendered path string,
last write wins. -/
def Results.recordStr (r : Results) (key : String) (vr : ValueResult) :
    Results :=
  if r.Fields.any (fun kv => kv.1 = key) then
    ⟨r.Fields.map fun kv => if kv.1 = key then (kv.1, vr) else kv⟩
  else ⟨r.Fields ++ [(key, vr)]⟩

/-- Modelled from the spec: `record(path, outcome)`. -/
def Results.record (r : Results) (p : Path) (vr : ValueResult) : Results :=
  r.recordStr (Path.String p) vr

/-- Modelled from the spec: `merge(otherResults)` re-records every
entry from another Results instance. -/
def Results.merge (r other : Results) : Results :=
  other.Fields.foldl (fun acc kv => acc.recordStr kv.1 kv.2) r

/-- Modelled from the spec: overall success iff no recorded outcome
failed. -/
def Results.succeeded (r : Results) : Bool :=
  r.Fields.all fun kv => kv.2.Valid

/-- The effective (last-written) outcome recorded at a rendered path
string. -/
def Results.lookupVR (r : Results) (key : String) : Option ValueResult :=
  r.Fields.foldl (fun acc kv => if kv.1 = key then some kv.2 else acc) none

/-- A report holding one outcome at one path. -/
def SingleResult (p : Path) (vr : ValueResult) : Results :=
  ⟨[(Path.String p, vr)]⟩

/-- Modelled from the spec: a passing outcome at a path. -/
def ValidResult (p : Path) : Results := SingleResult p ⟨true, "is valid"⟩

/-- Modelled from the spec: the failure outcome the Strict wrapper
records at an uncovered path. -/
def strictFailureVR : ValueResult := ⟨false, "unexpected key"⟩

/-- `StrictFailureResult`, used by the source `Strict`: one
"unexpected key" failure at the given path. -/
def StrictFailureResult (p : Path) : Results := SingleResult p strictFailureVR

def IsDef.Name : IsDef → String
  | .mk n _ _ => n

def IsDef.Optional : IsDef → Bool
  | .mk _ o _ => o

def IsDef.Checker : IsDef → Checker
  | .mk _ _ c => c

/-- Source `Is`: a named IsDef with the given checker. -/
def Is (name : String) (checker : Checker) : IsDef := .mk name false checker

/-- Source `Optional`: copy with the optional flag set and the name
prefixed. -/
def Optional (id : IsDef) : IsDef :=
  .mk ("Optional " ++ id.Name) true id.Checker

/-- Modelled from the spec: the default deep-equality predicate that
the compiler wraps around plain schema leaves (the isdef library is
absent from the sources). -/
def IsEqual (v : Value) : IsDef := .mk "equals" false (.isEqualTo v)

/-- Evaluation of a defunctionalized checker on (value, exists):
deep equality demands a present, equal value. -/
def Checker.eval : Checker → Option Value → Bool → Bool
  | .isEqualTo expected, v, keyExists => keyExists && v == some expected

/-- Modelled from the spec: `IsDef.Check` (absent from the sources).
An optional predicate treats absence as automatically passing;
otherwise the checker decides, and the outcome is recorded at the
path. -/
def IsDef.Check (id : IsDef) (path : Path) (v : Option Value)
    (keyExists : Bool) : Results :=
  if id.Optional && !keyExists then ValidResult path
  else if id.Checker.eval v keyExists then ValidResult path
  else SingleResult path ⟨false, "check failed"⟩

/-- Source `Validator`: the result of Compile, run against a value. -/
abbrev Validator := Value → Results

mutual

/-- Modelled from the spec: the Tree Walker (walk.go is absent from
the sources). `walkFullVisits` lists the observer calls for one node
already reached at `p`: the node itself is observed, then the walker
recurses into map entries (path extended with the key) and slice
elements (path extended with the index, in order). The filter inside
the source `setupWalkObserver`, which skips non-empty collections,
shows the walker reports every node, containers included. -/
def walkFullVisits : Value → Path → List (Path × Value)
  | .vmap es, p => (p, .vmap es) :: mapVisits es p
  | .vslice xs, p => (p, .vslice xs) :: sliceVisits xs p 0
  | v, p => [(p, v)]
termination_by structural v => v

/-- Modelled from the spec: walking the entries of a map node. -/
def mapVisits : List (String × Value) → Path → List (Path × Value)
  | [], _ => []
  | (k, c) :: rest, p => walkFullVisits c (p.ExtendMap k) ++ mapVisits rest p
termination_by structural es => es

/-- Modelled from the spec: walking the elements of a slice node.
The extra argument is the index of the head of the remaining list,
starting at 0. -/
def sliceVisits : List Value → Path → Nat → List (Path × Value)
  | [], _, _ => []
  | c :: rest, p, i =>
    walkFullVisits c (p.ExtendSlice (i : Int)) ++ sliceVisits rest p (i + 1)
termination_by structural xs => xs

end

/-- The children part of one walker step: what the walker does after
observing a node (recurse into map entries or slice elements). -/
def childVisits : Value → Path → List (Path × Value)
  | .vmap es, p => mapVisits es p
  | .vslice xs, p => sliceVisits xs p 0
  | _, _ => []

/-- Modelled from the spec: the entry point `walk` dispatches on the
root: a map or slice root is not itself observed, the walk starts at
its entries; any other root is a leaf observed at the empty path. -/
def walkVisits : Value → List (Path × Value)
  | .vmap es => mapVisits es []
  | .vslice xs => sliceVisits xs [] 0
  | v => [([], v)]

/-- Source `flatValidator`: a compiled (path, predicate) unit. -/
structure flatValidator where
  path : Path
  isDef : IsDef
deriving DecidableEq

/-- The compiled schema: an ordered sequence of flat validators. -/
abbrev CompiledSchema := List flatValidator

/-- Source: the collection test in `setupWalkObserver`
(`kind == reflect.Map || kind == reflect.Slice` together with
`rv.Len() > 0`). -/
def isNonEmptyCollection : Value → Bool
  | .vmap es => !es.isEmpty
  | .vslice xs => !xs.isEmpty
  | _ => false

/-- Source `setupWalkObserver`, one observer call: a non-empty
collection contributes nothing (its leaves are checked instead);
every other node contributes one flat validator at its path,
wrapping a non-IsDef value in IsEqual. -/
def observeNode (p : Path) (v : Value) : List flatValidator :=
  if isNonEmptyCollection v then []
  else
    match v with
    | .visDef d => [⟨p, d⟩]
    | _ => [⟨p, IsEqual v⟩]

/-- The compiled schema that `setupWalkObserver` accumulates over a
walk of `v`: one `observeNode` contribution per observer call, in
visit order. -/
def flatsOf (v : Value) : CompiledSchema :=
  (walkVisits v).flatMap fun pv => observeNode pv.1 pv.2

/-- Modelled from the spec: the lookup the Evaluator performs
(`returns (nil, false) as soon as any component cannot be resolved`).
It follows the container dispatch of `Path.GetFrom`, total where the
spec requires totality. -/
def lookupSpec : Path → Value → Option Value × Bool
  | [], v => (some v, true)
  | pc :: rest, v =>
    match v with
    | .vmap es =>
      match lookupEntries es pc.Key with
      | some c => lookupSpec rest c
      | none => (none, false)
    | .vslice xs =>
      if h : 0 ≤ pc.Index ∧ pc.Index < (xs.length : Int) then
        lookupSpec rest (xs.get ⟨pc.Index.toNat, by omega⟩)
      else (none, false)
    | _ => (none, false)

/-- Modelled from the spec: the Evaluator (`CompiledSchema.Check`,
absent from the sources). For each flat validator in compiled order:
resolve its path against the actual tree, invoke the predicate with
(path, value, found) and record the outcome. -/
def CompiledSchema.Check (cs : CompiledSchema) (actual : Value) : Results :=
  cs.foldl
    (fun res fv =>
      let r := lookupSpec fv.path actual
      res.merge (fv.isDef.Check fv.path r.1 r.2))
    NewResults

/-- Source `Compose`: run every validator on the same actual value,
then merge all results into one. The source loop re-records every
entry of every result via `EachResult` and `record`, which is exactly
`Results.merge` entry for entry. -/
def Compose (validators : List Validator) : Validator := fun actual =>
  let results := validators.map fun validator => validator actual
  results.foldl (fun combined r => combined.merge r) NewResults

/-- Byte-lexicographic string comparison of Go (`<=` on strings).
UTF-8 byte order coincides with codepoint order, so comparing the
character lists is faithful. -/
def lexLe : List Char → List Char → Bool
  | [], _ => true
  | _ :: _, [] => false
  | a :: as, b :: bs =>
    if a < b then true else if a = b then lexLe as bs else false

/-- Go string comparison on the rendered path strings. -/
def goLe (a b : String) : Bool := lexLe a.data b.data

/-- `goLe` as a relation, for the sorting API. -/
def goLeR (a b : String) : Prop := goLe a b = true

instance : DecidableRel goLeR := fun a b => by
  unfold goLeR; infer_instance

/-- `strings.HasPrefix(s, pre)`. -/
def goHasPref (s pre : String) : Bool := pre.data.isPrefixOf s.data

/-- `sort.Strings`: sort ascending by Go string comparison. Go reads
the keys out of the results map in arbitrary order and then sorts;
since the order is total, the sorted list is determined by the
multiset of keys, so sorting the insertion-ordered key list is
faithful. -/
def sortStrings (l : List String) : List String := List.insertionSort goLeR l

/-- `sort.SearchStrings(a, x)`: the smallest index `i` with
`a[i] >= x` (`len(a)` if none). On the sorted lists the source passes,
binary search returns the first index satisfying the monotone
predicate, which `findIdx` computes. -/
def SearchStrings (l : List String) (x : String) : Nat :=
  l.findIdx fun s => goLe x s

/-- Source `Strict`, body of the walk observer closure: skip a visited
path that is a key of the (live, growing) results; otherwise skip when
the entry at the binary-search insertion point has the rendered path
as a string prefix; otherwise merge an "unexpected key" failure. -/
def strictStep (validatedPaths : List String) (results : Results)
    (woi : Path × Value) : Results :=
  if results.Fields.any (fun kv => kv.1 = Path.String woi.1) then results
  else
    let matchIdx := SearchStrings validatedPaths (Path.String woi.1)
    if h : matchIdx < validatedPaths.length then
      if goHasPref (validatedPaths.get ⟨matchIdx, h⟩) (Path.String woi.1) then
        results
      else results.merge (StrictFailureResult woi.1)
    else results.merge (StrictFailureResult woi.1)

/-- Source `Strict`: run the lax validator, sort the recorded path
strings, then walk the actual tree, flagging every visited path that
is neither recorded verbatim nor covered by the prefix check. -/
def Strict (laxValidator : Validator) : Validator := fun actual =>
  let results := laxValidator actual
  let validatedPaths := sortStrings (results.Fields.map fun kv => kv.1)
  (walkVisits actual).foldl (strictStep validatedPaths) results

/-- Source `compileMap`: walk the schema map with the setup observer;
the observer never fails, so the error result is always nil. -/
def compileMap (m : List (String × Value)) : Validator × Option String :=
  (fun actual => CompiledSchema.Check (flatsOf (.vmap m)) actual, none)

/-- Source `compileSlice`: like `compileMap` but the validator is
always wrapped in `Strict` (slices are always strict in validation). -/
def compileSlice (s : List Value) : Validator × Option String :=
  (Strict fun actual => CompiledSchema.Check (flatsOf (.vslice s)) actual,
    none)

/-- Source `compileIsDef`: check the definition directly at the root
path with the actual value, marked as existing. -/
def compileIsDef (d : IsDef) : Validator × Option String :=
  (fun actual => d.Check [] (some actual) true, none)

/-- The `%T` format verb of Go on the embedded shapes. -/
def goTypeName : Value → String
  | .vnull => "<nil>"
  | .vint _ => "int"
  | .vstr _ => "string"
  | .vbool _ => "bool"
  | .vmap _ => "lookslike.Map"
  | .vslice _ => "lookslike.Slice"
  | .visDef _ => "lookslike.IsDef"

/-- The `%v` format verb of Go on the scalar shapes that can reach the
Compile error branch (maps, slices and IsDefs never reach it). -/
def goFmtScalar : Value → String
  | .vnull => "<nil>"
  | .vint n => ⟨intDecChars n⟩
  | .vstr s => s
  | .vbool b => if b then "true" else "false"
  | _ => ""

/-- The error message of the Compile default branch. Go quotes the
three expected names; the quote characters are omitted here. -/
def cannotCompileMsg (v : Value) : String :=
  "Cannot compile definition from " ++ goFmtScalar v ++ " (" ++
    goTypeName v ++ "). Expected one of Map, Slice, or IsDef"

/-- Source `Compile`: dispatch on the dynamic type of the input;
anything other than Map, Slice or IsDef is a descriptive error naming
the received shape. -/
def Compile : Value → Except String Validator
  | .vmap es => .ok (compileMap es).1
  | .vslice xs => .ok (compileSlice xs).1
  | .visDef d => .ok (compileIsDef d).1
  | v => .error (cannotCompileMsg v)

/-- Whether the top-level schema shape is one of Map, Slice, IsDef -
the shapes the source `Compile` accepts. -/
def isCompilable : Value → Bool
  | .vmap _ => true
  | .vslice _ => true
  | .visDef _ => true
  | _ => false

/-- Addressing a node of a value tree by a canonical path: the path
components the engine itself builds (`ExtendMap` leaves `Index = -1`,
`ExtendSlice` leaves `Key = ""`). Used to state that a schema tree
holds a given value at a given path. -/
def subNode : Value → Path → Option Value
  | v, [] => some v
  | v, pc :: rest =>
    match v with
    | .vmap es =>
      if pc.Type' = pcMapKey ∧ pc.Index = -1 then
        match lookupEntries es pc.Key with
        | some c => subNode c rest
        | none => none
      else none
    | .vslice xs =>
      if h : pc.Type' = pcSliceIdx ∧ pc.Key = "" ∧ 0 ≤ pc.Index ∧
          pc.Index < (xs.length : Int) then
        subNode (xs.get ⟨pc.Index.toNat, by omega⟩) rest
      else none
    | _ => none

mutual

/-- Well-formedness of an embedded value tree: every map node has
pairwise distinct keys. Go maps cannot hold duplicate keys; the
association lists of the embedding can, so this captures the Go
invariant. -/
def wfValue : Value → Bool
  | .vmap es => decide ((es.map fun kv => kv.1).Nodup) && wfEntries es
  | .vslice xs => wfList xs
  | _ => true
termination_by structural v => v

def wfEntries : List (String × Value) → Bool
  | [] => true
  | (_, v) :: rest => wfValue v && wfEntries rest
termination_by structural es => es

def wfList : List Value → Bool
  | [] => true
  | v :: rest => wfValue v && wfList rest
termination_by structural xs => xs

end

/-- The paths the Tree Walker visits in an actual tree, in visit
order. -/
def walkPaths (v : Value) : List Path := (walkVisits v).map fun pv => pv.1

/-- A visited path is covered exactly when some recorded path string
has its rendered string as a string prefix: this is what the
sort-then-binary-search of the source `Strict` computes. -/
def coveredBy (keys : List String) (p : Path) : Bool :=
  keys.any fun s => goHasPref s (Path.String p)

/-- Whether a dot-separated segment makes `ParsePath` fail: an empty
segment, or a bracketed index whose value overflows the 64-bit int
range. -/
def segmentBad (part : List Char) : Bool :=
  match findBracketNumChars part with
  | some ds => decide (digitsVal ds > maxGoInt)
  | none => part.isEmpty

/-- The exact failure condition of `ParsePath`. -/
def parsePathErrors (s : String) : Bool :=
  (splitDotChars s.data).any segmentBad

/-- The component shapes whose rendering parses back exactly: a map
key built by `ExtendMap` whose key is nonempty, dot-free and holds no
bracketed digit run, or a slice index built by `ExtendSlice` that is
nonnegative and within the 64-bit int range. -/
def roundTrippable (c : pathComponent) : Bool :=
  match c.Type' with
  | pcMapKey =>
    decide (c.Index = -1) && decide (c.Key.data ≠ []) &&
      decide ('.' ∉ c.Key.data) && (findBracketNumChars c.Key.data).isNone
  | pcSliceIdx =>
    decide (c.Key = "") && decide (0 ≤ c.Index) &&
      decide (c.Index ≤ (maxGoInt : Int))
  | pcScalar => false

/-- The predicate `Is "eq" ...` of the spec examples, checking
equality with the string `"x"`. -/
def isEqX : IsDef := Is "eq" (.isEqualTo (.vstr "x"))

/-- Counterexample input for the strict-coverage claim: a lax
validator that records the single path string `"q.rs"`. -/
def cexLax : Validator := fun _ => ⟨[("q.rs", ⟨false, "lax failure"⟩)]⟩

/-- Counterexample input for the strict-coverage claim: the actual
tree `\x7bq: \x7br: 1\x7d, m: \x7bn: 1\x7d\x7d`. -/
def cexActual : Value :=
  .vmap [("q", .vmap [("r", .vint 1)]), ("m", .vmap [("n", .vint 1)])]

/-- Witness input for the strict-coverage claim: a lax validator
recording exactly the path string `"a"`. -/
def wLax : Validator := fun _ => ⟨[("a", ⟨true, "is valid"⟩)]⟩

/-- Witness input for the strict-coverage claim: the actual tree
`\x7ba: 1, b: 2\x7d`. -/
def wActual : Value := .vmap [("a", .vint 1), ("b", .vint 2)]

/-- Counterexample validators for the Compose claim: the first fails
at `"p1"`. -/
def cv1 : Validator := fun _ => ⟨[("p1", ⟨false, "v1 fail"⟩)]⟩

/-- Counterexample validators for the Compose claim: the second
records a pass at `"p1"` and a failure at `"p2"`. -/
def cv2 : Validator :=
  fun _ => ⟨[("p1", ⟨true, "v2 pass"⟩), ("p2", ⟨false, "v2 fail"⟩)]⟩

/-- Witness validators for the Compose claim: fails at `"p1"` only. -/
def wv1 : Validator := fun _ => ⟨[("p1", ⟨false, "w1 fail"⟩)]⟩

/-- Witness validators for the Compose claim: fails at `"p2"` only. -/
def wv2 : Validator := fun _ => ⟨[("p2", ⟨false, "w2 fail"⟩)]⟩

/-- Witness schema for the leaf-classification claim:
`\x7ba: \x7bb: 1\x7d\x7d`. -/
def wSchema6 : Value := .vmap [("a", .vmap [("b", .vint 1)])]

/-- Witness schema for the empty-collection claim: `\x7ba: \x7b\x7d\x7d`. -/
def wSchema7 : Value := .vmap [("a", .vmap [])]

instance {ε α : Type} [DecidableEq ε] [DecidableEq α] :
    DecidableEq (Except ε α) := fun x y =>
  match x, y with
  | .ok a, .ok b => decidable_of_iff (a = b) (by simp)
  | .error a, .error b => decidable_of_iff (a = b) (by simp)
  | .ok _, .error _ => isFalse (by simp)
  | .error _, .ok _ => isFalse (by simp)

/-- Claim C10: looking up the empty Path returns the tree itself as
found: for every value tree m, scalars and nil included, GetFrom of
the empty path yields (m, true), so the empty path denotes the root. -/
theorem c10_empty_path_returns_root (m : Value) :
    Path.GetFrom [] m = .ret (some m) true := rfl

/-- Claim C3 (code bug): GetFrom is claimed total and panic-free, but
two inputs panic. On the tree \x7ba: nil\x7d with path a.b, resolving
a yields the untyped nil and the next iteration calls
reflect.TypeOf(nil).Kind(), a nil dereference. On a one-element slice
with index component -1, the bounds test -1 < 1 passes and the slice
indexing panics. -/
theorem c3_getfrom_panics_on_nil_node_and_negative_index :
    Path.GetFrom [⟨pcMapKey, "a", -1⟩, ⟨pcMapKey, "b", -1⟩]
        (.vmap [("a", .vnull)]) = .panics
    ∧ Path.GetFrom [⟨pcSliceIdx, "", -1⟩] (.vslice [.vint 5]) = .panics :=
  ⟨by decide, by decide⟩

/-- The ok and error shapes of `Except.isOk`, used to compute with
parser results. -/
theorem isOk_ok {ε α : Type} (x : α) :
    (Except.ok x : Except ε α).isOk = true := rfl

theorem isOk_error {ε α : Type} (e : ε) :
    (Except.error e : Except ε α).isOk = false := rfl

theorem isOk_map {ε α β : Type} (f : α → β) (e : Except ε α) :
    (e.map f).isOk = e.isOk := by cases e <;> rfl

/-- Claim C8: Compile succeeds exactly on a top-level Map, Slice or
IsDef, and on every other shape it returns the error message built
from the received shape name. -/
theorem c8_compile_error_characterization (v : Value) :
    (Compile v).isOk = isCompilable v
    ∧ (isCompilable v = false → Compile v = .error (cannotCompileMsg v)) := by
  cases v <;> simp [Compile, isCompilable, isOk_ok, isOk_error]

/-- Witness for C8 at the concrete non-compilable input 3. -/
theorem c8_compile_error_witness :
    isCompilable (Value.vint 3) = false
    ∧ Compile (Value.vint 3) = .error (cannotCompileMsg (Value.vint 3)) :=
  ⟨by decide, (c8_compile_error_characterization (Value.vint 3)).2 (by decide)⟩

/-- Claim C5: compileSlice always wraps its validator in Strict, and
on the spec examples: the schema `[Is "eq" "x"]` evaluated against
`["x", "y"]` fails with an unexpected-key outcome at `[1]`, while
against `["x"]` it succeeds. -/
theorem c5_slice_schemas_are_strict :
    (compileSlice [.visDef isEqX]).2 = none
    ∧ (∀ (sch : List Value) (a : Value),
        (compileSlice sch).1 a
          = Strict (fun x => CompiledSchema.Check (flatsOf (.vslice sch)) x) a)
    ∧ ((compileSlice [.visDef isEqX]).1
          (.vslice [.vstr "x", .vstr "y"])).lookupVR "[1]"
        = some strictFailureVR
    ∧ ((compileSlice [.visDef isEqX]).1
          (.vslice [.vstr "x", .vstr "y"])).succeeded = false
    ∧ ((compileSlice [.visDef isEqX]).1 (.vslice [.vstr "x"])).succeeded
        = true :=
  ⟨rfl, fun _ _ => rfl, by decide, by decide, by decide⟩

/-- The success of parsePathParts is exactly the absence of a bad
segment. -/
theorem parsePathParts_isOk (full : String) :
    ∀ parts : List (List Char),
      (parsePathParts full parts).isOk = !parts.any segmentBad
  | [] => rfl
  | part :: rest => by
    have ih := parsePathParts_isOk full rest
    simp only [parsePathParts, parsePathPart, List.any_cons, Bool.not_or,
      segmentBad]
    cases hfb : findBracketNumChars part with
    | some ds =>
      simp only [goAtoi]
      by_cases hle : digitsVal ds ≤ maxGoInt
      · simp only [if_pos hle, isOk_map, ih,
          decide_eq_false (by omega : ¬digitsVal ds > maxGoInt),
          Bool.not_false, Bool.true_and]
      · simp only [if_neg hle, isOk_error,
          decide_eq_true (by omega : digitsVal ds > maxGoInt),
          Bool.not_true, Bool.false_and]
    | none =>
      cases part with
      | nil => simp [isOk_error, List.isEmpty]
      | cons c cs => simp [isOk_map, ih, List.isEmpty]

/-- Claim C4 (amended): ParsePath fails exactly when some
dot-separated segment of the input is empty (the empty input included)
or holds a bracketed index that overflows the 64-bit int range; every
other input parses with no error. -/
theorem c4_parse_error_characterization (s : String) :
    (ParsePath s).isOk = !parsePathErrors s :=
  parsePathParts_isOk s (splitDotChars s.data)

/-- Counterexample to C4 as stated: the empty input is the rendering
of the root path yet ParsePath rejects it, and the input `[x]`, whose
single segment is an unparsable index token, parses with no error as a
map key. -/
theorem c4_counterexample :
    ParsePath "" = .error (.InvalidPathString "")
    ∧ ParsePath "[x]" = .ok [⟨pcMapKey, "[x]", -1⟩] :=
  ⟨by decide, by decide⟩

/-- The last-match fold computing `lookupVR` from an arbitrary
accumulator: the accumulator only matters when the list holds no
match. -/
theorem foldl_lookup_init (key : String) (l : List (String × ValueResult)) :
    ∀ init : Option ValueResult,
      l.foldl (fun acc kv => if kv.1 = key then some kv.2 else acc) init
        = match l.foldl
              (fun acc kv => if kv.1 = key then some kv.2 else acc) none with
          | some v => some v
          | none => init := by
  induction l with
  | nil => intro init; rfl
  | cons kv rest ih =>
    intro init
    simp only [List.foldl_cons]
    by_cases h : kv.1 = key
    · simp only [if_pos h]
      rw [ih (some kv.2)]
      cases rest.foldl (fun acc kv => if kv.1 = key then some kv.2 else acc)
        none <;> rfl
    · simp only [if_neg h]
      exact ih init

/-- Overwriting the entries at key `k` does not change the last-match
fold at a different key. -/
theorem foldl_lookup_map_ne (k k' : String) (vr : ValueResult)
    (hk : k' ≠ k) (l : List (String × ValueResult)) :
    ∀ init : Option ValueResult,
      (l.map fun kv => if kv.1 = k then (kv.1, vr) else kv).foldl
          (fun acc kv => if kv.1 = k' then some kv.2 else acc) init
        = l.foldl (fun acc kv => if kv.1 = k' then some kv.2 else acc)
            init := by
  induction l with
  | nil => intro init; rfl
  | cons kv rest ih =>
    intro init
    simp only [List.map_cons, List.foldl_cons]
    rw [ih]
    congr 1
    by_cases hkv : kv.1 = k
    · have hne : ¬k = k' := fun hc => hk hc.symm
      simp [hkv, hne]
    · simp [hkv]

/-- After overwriting every entry at key `k` with `vr`, the last-match
fold at `k` yields `vr`, provided some entry at `k` exists. -/
theorem foldl_lookup_map_eq (k : String) (vr : ValueResult)
    (l : List (String × ValueResult))
    (hany : l.any (fun kv => kv.1 = k) = true) :
    (l.map fun kv => if kv.1 = k then (kv.1, vr) else kv).foldl
        (fun acc kv => if kv.1 = k then some kv.2 else acc) none
      = some vr := by
  induction l using List.reverseRecOn with
  | nil => simp at hany
  | append_singleton front x ihf =>
    simp only [List.map_append, List.foldl_append, List.map_cons,
      List.map_nil, List.foldl_cons, List.foldl_nil]
    by_cases hx : x.1 = k
    · simp [hx]
    · simp only [if_neg hx, if_neg hx]
      apply ihf
      simp only [List.any_append, Bool.or_eq_true] at hany
      rcases hany with h | h
      · exact h
      · simp [List.any_cons, hx] at h

/-- Recording at one key only changes the lookup at that key. -/
theorem lookupVR_recordStr (r : Results) (k : String) (vr : ValueResult)
    (k' : String) :
    (r.recordStr k vr).lookupVR k'
      = if k' = k then some vr else r.lookupVR k' := by
  obtain ⟨l⟩ := r
  simp only [Results.recordStr, Results.lookupVR]
  by_cases hany : l.any (fun kv => kv.1 = k)
  · simp only [if_pos hany]
    by_cases hk : k' = k
    · subst hk
      simp only [if_pos rfl]
      exact foldl_lookup_map_eq k' vr l hany
    · simp only [if_neg hk]
      exact foldl_lookup_map_ne k k' vr hk l none
  · simp only [if_neg hany, List.foldl_append, List.foldl_cons,
      List.foldl_nil]
    by_cases hk : k' = k
    · subst hk
      simp
    · have hkk : ¬k = k' := fun hc => hk hc.symm
      simp [hkk, hk]

/-- The effective outcome after a merge: the merged-in report wins
where it recorded, the receiver is kept elsewhere. -/
theorem lookupVR_merge (a b : Results) (k : String) :
    (a.merge b).lookupVR k
      = match b.lookupVR k with
        | some v => some v
        | none => a.lookupVR k := by
  obtain ⟨bl⟩ := b
  induction bl generalizing a with
  | nil =>
    show a.lookupVR k = match (none : Option ValueResult) with
      | some v => some v
      | none => a.lookupVR k
    rfl
  | cons kv rest ih =>
    show ((a.recordStr kv.1 kv.2).merge ⟨rest⟩).lookupVR k = _
    rw [ih, lookupVR_recordStr]
    have hcons : (Results.mk (kv :: rest)).lookupVR k
        = match (Results.mk rest).lookupVR k with
          | some v => some v
          | none => if kv.1 = k then some kv.2 else none := by
      simp only [Results.lookupVR, List.foldl_cons]
      exact foldl_lookup_init k rest _
    rw [hcons]
    cases hR : (Results.mk rest).lookupVR k with
    | some v => rfl
    | none =>
      by_cases hkv : kv.1 = k
      · simp [hkv]
      · have hkk : ¬k = kv.1 := fun hc => hkv hc.symm
        simp [hkv, hkk]

theorem lookupVR_merge_some (a b : Results) (k : String) (v : ValueResult)
    (h : b.lookupVR k = some v) : (a.merge b).lookupVR k = some v := by
  rw [lookupVR_merge, h]

theorem lookupVR_merge_none (a b : Results) (k : String)
    (h : b.lookupVR k = none) : (a.merge b).lookupVR k = a.lookupVR k := by
  rw [lookupVR_merge, h]

/-- Claim C9 (amended): Compose of two validators yields a merged
report holding the failure of v1 at p1 and the failure of v2 at p2,
provided the later validator records no outcome at p1 - the
spec-modelled Results merge is last-write-wins per rendered path, so a
later record at the same path would overwrite the earlier failure. -/
theorem c9_compose_keeps_failures (v1 v2 : Validator) (a : Value)
    (p1 p2 : String) (vr1 vr2 : ValueResult)
    (h1 : (v1 a).lookupVR p1 = some vr1) (_hv1 : vr1.Valid = false)
    (h2 : (v2 a).lookupVR p2 = some vr2) (_hv2 : vr2.Valid = false)
    (_hne : p1 ≠ p2) (hmask : (v2 a).lookupVR p1 = none) :
    (Compose [v1, v2] a).lookupVR p1 = some vr1
    ∧ (Compose [v1, v2] a).lookupVR p2 = some vr2 := by
  have e : Compose [v1, v2] a = (NewResults.merge (v1 a)).merge (v2 a) := rfl
  constructor
  · rw [e, lookupVR_merge_none _ _ _ hmask, lookupVR_merge_some _ _ _ _ h1]
  · rw [e, lookupVR_merge_some _ _ _ _ h2]

/-- Counterexample to C9 as stated: cv1 fails at p1, cv2 fails at p2
(distinct paths), yet their composition does not contain the cv1
failure at p1 - cv2 also records a passing outcome at p1 and the
last-write-wins merge of the spec overwrites the failure. -/
theorem c9_counterexample :
    (cv1 Value.vnull).lookupVR "p1" = some ⟨false, "v1 fail"⟩
    ∧ (cv2 Value.vnull).lookupVR "p2" = some ⟨false, "v2 fail"⟩
    ∧ (Compose [cv1, cv2] Value.vnull).lookupVR "p1"
        = some ⟨true, "v2 pass"⟩ :=
  ⟨by decide, by decide, by decide⟩

/-- Witness for the amended C9 at concrete validators failing at p1
and p2 respectively. -/
theorem c9_compose_witness :
    (Compose [wv1, wv2] Value.vnull).lookupVR "p1"
        = some ⟨false, "w1 fail"⟩
    ∧ (Compose [wv1, wv2] Value.vnull).lookupVR "p2"
        = some ⟨false, "w2 fail"⟩ :=
  c9_compose_keeps_failures wv1 wv2 Value.vnull "p1" "p2"
    ⟨false, "w1 fail"⟩ ⟨false, "w2 fail"⟩ (by decide) (by decide)
    (by decide) (by decide) (by decide) (by decide)

theorem digitChar_toNat (d : Nat) (hd : d < 10) :
    (Char.ofNat (48 + d)).toNat = 48 + d := by
  interval_cases d <;> decide

theorem digitChar_isDigit (d : Nat) (hd : d < 10) :
    (Char.ofNat (48 + d)).isDigit = true := by
  interval_cases d <;> decide

/-- Any sufficient fuel yields the same digits. -/
theorem natDecCharsAux_irrel (n : Nat) :
    ∀ f1 f2 : Nat, n < f1 → n < f2 →
      natDecCharsAux f1 n = natDecCharsAux f2 n := by
  induction n using Nat.strong_induction_on with
  | _ n ih =>
    intro f1 f2 h1 h2
    cases f1 with
    | zero => omega
    | succ g1 =>
      cases f2 with
      | zero => omega
      | succ g2 =>
        simp only [natDecCharsAux]
        by_cases h10 : n < 10
        · simp [h10]
        · simp only [if_neg h10]
          congr 1
          exact ih (n / 10) (Nat.div_lt_self (by omega) (by omega)) g1 g2
            (by omega) (by omega)

/-- The defining recursion of `natDecChars`. -/
theorem natDecChars_eq (n : Nat) :
    natDecChars n
      = if n < 10 then [Char.ofNat (48 + n)]
        else natDecChars (n / 10) ++ [Char.ofNat (48 + n % 10)] := by
  show natDecCharsAux (n + 1) n = _
  by_cases h10 : n < 10
  · simp [natDecCharsAux, h10]
  · simp only [natDecCharsAux, if_neg h10]
    congr 1
    exact natDecCharsAux_irrel (n / 10) n (n / 10 + 1)
      (by omega) (by omega)

theorem natDecChars_ne_nil (n : Nat) : natDecChars n ≠ [] := by
  rw [natDecChars_eq]
  by_cases h10 : n < 10 <;> simp [h10]

theorem natDecChars_all_digit (n : Nat) :
    ∀ c ∈ natDecChars n, c.isDigit = true := by
  induction n using Nat.strong_induction_on with
  | _ n ih =>
    rw [natDecChars_eq]
    by_cases h10 : n < 10
    · simp only [if_pos h10, List.mem_singleton]
      intro c hc
      subst hc
      exact digitChar_isDigit n h10
    · simp only [if_neg h10, List.mem_append, List.mem_singleton]
      intro c hc
      rcases hc with hc | hc
      · exact ih (n / 10) (Nat.div_lt_self (by omega) (by omega)) c hc
      · subst hc
        exact digitChar_isDigit (n % 10) (by omega)

theorem digitsVal_append_digit (l : List Char) (c : Char) :
    digitsVal (l ++ [c]) = digitsVal l * 10 + (c.toNat - 48) := by
  simp [digitsVal, List.foldl_append]

theorem digitsVal_natDecChars (n : Nat) :
    digitsVal (natDecChars n) = n := by
  induction n using Nat.strong_induction_on with
  | _ n ih =>
    rw [natDecChars_eq]
    by_cases h10 : n < 10
    · simp only [if_pos h10]
      show digitsVal ([] ++ [Char.ofNat (48 + n)]) = n
      rw [digitsVal_append_digit, digitChar_toNat n h10]
      simp [digitsVal]
    · simp only [if_neg h10]
      rw [digitsVal_append_digit,
        ih (n / 10) (Nat.div_lt_self (by omega) (by omega)),
        digitChar_toNat (n % 10) (by omega)]
      omega

/-- takeWhile passes over a block of satisfying characters and stops
at the first failing one. -/
theorem takeWhile_all_append (p : Char → Bool) (x : Char) (t : List Char)
    (hx : p x = false) :
    ∀ l : List Char, (∀ c ∈ l, p c = true) →
      (l ++ x :: t).takeWhile p = l := by
  intro l
  induction l with
  | nil => intro _; simp [List.takeWhile, hx]
  | cons c l' ih =>
    intro hall
    have hc : p c = true := hall c (by simp)
    simp only [List.cons_append, List.takeWhile_cons, hc]
    rw [ih fun d hd => hall d (by simp [hd])]
    simp

/-- The bracket scanner accepts a rendered nonempty digit run. -/
theorem findBracket_digits (ds : List Char) (hne : ds ≠ [])
    (hdig : ∀ c ∈ ds, c.isDigit = true) :
    findBracketNumChars ('[' :: (ds ++ [']'])) = some ds := by
  have htake : (ds ++ [']']).takeWhile Char.isDigit = ds :=
    takeWhile_all_append Char.isDigit ']' [] (by decide) ds hdig
  simp only [findBracketNumChars, if_pos rfl, htake]
  have hlen : ds.length > 0 := List.length_pos.mpr hne
  simp only [if_pos hlen]
  have hdrop : (ds ++ [']']).drop ds.length = [']'] := List.drop_left ds [']']
  rw [hdrop]
  simp

/-- Splitting after an initial dot-free block. -/
theorem splitDot_block (ys : List Char) :
    ∀ xs : List Char, '.' ∉ xs →
      splitDotChars (xs ++ '.' :: ys) = xs :: splitDotChars ys := by
  intro xs
  induction xs with
  | nil => intro _; simp [splitDotChars]
  | cons c cs ih =>
    intro hnd
    have hc : ¬c = '.' := fun hc => hnd (by simp [hc])
    simp only [List.cons_append, splitDotChars, if_neg hc, List.append_eq]
    rw [ih fun h => hnd (by simp [h])]

/-- A dot-free block splits to itself. -/
theorem splitDot_single : ∀ xs : List Char, '.' ∉ xs →
    splitDotChars xs = [xs] := by
  intro xs
  induction xs with
  | nil => intro _; rfl
  | cons c cs ih =>
    intro hnd
    have hc : ¬c = '.' := fun hc => hnd (by simp [hc])
    simp only [splitDotChars, if_neg hc]
    rw [ih fun h => hnd (by simp [h])]

/-- Splitting inverts joining for nonempty lists of dot-free blocks. -/
theorem splitDot_joinDot :
    ∀ parts : List (List Char), parts ≠ [] →
      (∀ part ∈ parts, '.' ∉ part) →
      splitDotChars (joinDotChars parts) = parts
  | [], h, _ => absurd rfl h
  | [x], _, hnd => by
    simp only [joinDotChars]
    exact splitDot_single x (hnd x (by simp))
  | x :: y :: rest, _, hnd => by
    simp only [joinDotChars]
    rw [splitDot_block (joinDotChars (y :: rest)) x (hnd x (by simp))]
    rw [splitDot_joinDot (y :: rest) (by simp)
      fun part hp => hnd part (by simp [hp])]

/-- A round-trippable component's rendering contains no dot. -/
theorem render_no_dot (c : pathComponent) (h : roundTrippable c = true) :
    '.' ∉ (pathComponent.String c).data := by
  obtain ⟨T, K, I⟩ := c
  cases T with
  | pcMapKey =>
    simp only [roundTrippable, Bool.and_eq_true, decide_eq_true_eq] at h
    simpa [pathComponent.String] using h.1.2
  | pcSliceIdx =>
    simp only [roundTrippable, Bool.and_eq_true, decide_eq_true_eq] at h
    simp only [pathComponent.String, if_pos rfl]
    intro hmem
    rcases List.mem_cons.mp hmem with hc | hc
    · exact absurd hc (by decide)
    · rcases List.mem_append.mp hc with hc | hc
      · have hnn : ¬(I < 0) := by omega
        rw [intDecChars] at hc
        simp only [hnn, if_false] at hc
        have := natDecChars_all_digit I.toNat '.' hc
        exact absurd this (by decide)
      · rcases List.mem_singleton.mp hc with hc
        exact absurd hc (by decide)
  | pcScalar => simp [roundTrippable] at h

/-- A round-trippable component's rendering is a nonempty segment. -/
theorem render_ne_nil (c : pathComponent) (h : roundTrippable c = true) :
    (pathComponent.String c).data ≠ [] := by
  obtain ⟨T, K, I⟩ := c
  cases T with
  | pcMapKey =>
    simp only [roundTrippable, Bool.and_eq_true, decide_eq_true_eq] at h
    simpa [pathComponent.String] using h.1.1.2
  | pcSliceIdx => simp [pathComponent.String]
  | pcScalar => simp [roundTrippable] at h

/-- A round-trippable component parses back from its rendering. -/
theorem parsePart_render (full : String) (c : pathComponent)
    (h : roundTrippable c = true) :
    parsePathPart full (pathComponent.String c).data = .ok c := by
  obtain ⟨T, K, I⟩ := c
  cases T with
  | pcMapKey =>
    simp only [roundTrippable, Bool.and_eq_true, decide_eq_true_eq,
      Option.isNone_iff_eq_none] at h
    obtain ⟨⟨⟨hidx, hkey⟩, _⟩, hfb⟩ := h
    have hrend : (pathComponent.String ⟨pcMapKey, K, I⟩).data = K.data := by
      simp [pathComponent.String]
    rw [hrend]
    simp only [parsePathPart, hfb]
    rw [if_pos (List.length_pos.mpr hkey)]
    subst hidx
    obtain ⟨kd⟩ := K
    rfl
  | pcSliceIdx =>
    simp only [roundTrippable, Bool.and_eq_true, decide_eq_true_eq] at h
    obtain ⟨⟨hkey, hnn⟩, hle⟩ := h
    have hnlt : ¬(I < 0) := by omega
    have hrend : (pathComponent.String ⟨pcSliceIdx, K, I⟩).data
        = '[' :: (natDecChars I.toNat ++ [']']) := by
      simp [pathComponent.String, intDecChars, hnlt]
    rw [hrend]
    simp only [parsePathPart,
      findBracket_digits (natDecChars I.toNat)
        (natDecChars_ne_nil I.toNat) (natDecChars_all_digit I.toNat)]
    simp only [goAtoi, digitsVal_natDecChars]
    have hleN : I.toNat ≤ maxGoInt := by omega
    rw [if_pos hleN]
    have hval : ((I.toNat : Nat) : Int) = I := Int.toNat_of_nonneg hnn
    subst hkey
    simp [hval]
  | pcScalar => simp [roundTrippable] at h

/-- Segment-wise parsing of a rendered path. -/
theorem parseParts_render (full : String) :
    ∀ p : Path, (∀ c ∈ p, roundTrippable c = true) →
      parsePathParts full (p.map fun c => (pathComponent.String c).data)
        = .ok p
  | [], _ => rfl
  | c :: rest, h => by
    simp only [List.map_cons, parsePathParts,
      parsePart_render full c (h c (by simp)),
      parseParts_render full rest fun d hd => h d (by simp [hd])]
    rfl

/-- Claim C2 (amended): parse inverts render for every nonempty path
whose components are engine-shaped and round-trippable: map keys that
are nonempty, dot-free and hold no bracketed digit run, and slice
indices within 0..2^63-1. The empty path renders to the empty string,
which ParsePath rejects. -/
theorem c2_parse_render_roundtrip (p : Path) (hne : p ≠ [])
    (hc : ∀ c ∈ p, roundTrippable c = true) :
    ParsePath (Path.String p) = .ok p := by
  show parsePathParts _ (splitDotChars (Path.String p).data) = .ok p
  have hdata : (Path.String p).data
      = joinDotChars (p.map fun c => (pathComponent.String c).data) := rfl
  rw [hdata, splitDot_joinDot _ (by simpa using hne)
    (by
      intro part hp
      rw [List.mem_map] at hp
      obtain ⟨c, hcp, hrend⟩ := hp
      rw [← hrend]
      exact render_no_dot c (hc c hcp))]
  exact parseParts_render _ p hc

/-- Counterexample to C2 as stated: the path built by ExtendMap with
the key `a.b` renders to `a.b`, which parses back as two components;
and the empty construction sequence yields the empty path, whose
rendering (the empty string) does not parse at all. -/
theorem c2_counterexample :
    ParsePath (Path.String (Path.ExtendMap [] "a.b"))
        ≠ .ok (Path.ExtendMap [] "a.b")
    ∧ ParsePath (Path.String ([] : Path))
        = .error (.InvalidPathString "") :=
  ⟨by decide, by decide⟩

/-- Witness for the amended C2 at the concrete path `a.[3]`. -/
theorem c2_roundtrip_witness :
    ParsePath (Path.String ((Path.ExtendMap [] "a").ExtendSlice 3))
      = .ok ((Path.ExtendMap [] "a").ExtendSlice 3) :=
  c2_parse_render_roundtrip ((Path.ExtendMap [] "a").ExtendSlice 3)
    (by decide) (by decide)

theorem wf_vmap (es : List (String × Value))
    (h : wfValue (.vmap es) = true) :
    (es.map fun kv => kv.1).Nodup ∧ wfEntries es = true := by
  simpa [wfValue, Bool.and_eq_true] using h

theorem wfEntries_mem (es : List (String × Value)) (k : String) (c : Value)
    (h : wfEntries es = true) (hm : (k, c) ∈ es) : wfValue c = true := by
  induction es with
  | nil => simp at hm
  | cons kv rest ih =>
    obtain ⟨k', v'⟩ := kv
    simp only [wfEntries, Bool.and_eq_true] at h
    rcases List.mem_cons.mp hm with he | hm'
    · obtain ⟨hk, hv⟩ := Prod.mk.injEq .. ▸ he
      exact hv ▸ h.1
    · exact ih h.2 hm'

theorem wfList_mem (xs : List Value) (c : Value)
    (h : wfList xs = true) (hm : c ∈ xs) : wfValue c = true := by
  induction xs with
  | nil => simp at hm
  | cons v rest ih =>
    simp only [wfList, Bool.and_eq_true] at h
    rcases List.mem_cons.mp hm with he | hm'
    · exact he ▸ h.1
    · exact ih h.2 hm'

theorem lookupEntries_mem (es : List (String × Value)) (k : String)
    (c : Value) (h : lookupEntries es k = some c) : (k, c) ∈ es := by
  induction es with
  | nil => simp [lookupEntries] at h
  | cons kv rest ih =>
    obtain ⟨k', v'⟩ := kv
    simp only [lookupEntries] at h
    by_cases hk : k' = k
    · rw [if_pos hk] at h
      obtain rfl := Option.some.injEq .. ▸ h
      simp [hk]
    · rw [if_neg hk] at h
      exact List.mem_cons_of_mem _ (ih h)

theorem lookupEntries_of_nodup (es : List (String × Value)) (k : String)
    (c : Value) (hnd : (es.map fun kv => kv.1).Nodup)
    (hm : (k, c) ∈ es) : lookupEntries es k = some c := by
  induction es with
  | nil => simp at hm
  | cons kv rest ih =>
    obtain ⟨k', v'⟩ := kv
    simp only [List.map_cons, List.nodup_cons] at hnd
    rcases List.mem_cons.mp hm with he | hm'
    · obtain ⟨hk, hv⟩ := Prod.mk.injEq .. ▸ he
      simp [lookupEntries, hk, hv]
    · have hne : ¬k' = k := by
        intro hc
        subst hc
        exact hnd.1 (List.mem_map.mpr ⟨(k', c), hm', rfl⟩)
      simp only [lookupEntries, if_neg hne]
      exact ih hnd.2 hm'

/-- Membership in the walk of map entries. -/
theorem mem_mapVisits (es : List (String × Value)) (p q : Path)
    (w : Value) :
    (q, w) ∈ mapVisits es p
      ↔ ∃ k c, (k, c) ∈ es
          ∧ (q, w) ∈ walkFullVisits c (p.ExtendMap k) := by
  induction es with
  | nil => simp [mapVisits]
  | cons kv rest ih =>
    obtain ⟨k', c'⟩ := kv
    simp only [mapVisits, List.mem_append, ih, List.mem_cons]
    constructor
    · rintro (hm | ⟨k, c, hkc, hm⟩)
      · exact ⟨k', c', Or.inl rfl, hm⟩
      · exact ⟨k, c, Or.inr hkc, hm⟩
    · rintro ⟨k, c, hkc | hkc, hm⟩
      · obtain ⟨hk, hc⟩ := Prod.mk.injEq .. ▸ hkc
        subst hk
        subst hc
        exact Or.inl hm
      · exact Or.inr ⟨k, c, hkc, hm⟩

/-- Membership in the walk of slice elements. -/
theorem mem_sliceVisits (xs : List Value) (p : Path) :
    ∀ (i : Nat) (q : Path) (w : Value),
      (q, w) ∈ sliceVisits xs p i
        ↔ ∃ j, ∃ h : j < xs.length,
            (q, w) ∈ walkFullVisits (xs.get ⟨j, h⟩)
              (p.ExtendSlice ((i + j : Nat) : Int)) := by
  induction xs with
  | nil => simp [sliceVisits]
  | cons c rest ih =>
    intro i q w
    simp only [sliceVisits, List.mem_append, ih (i + 1)]
    constructor
    · rintro (hm | ⟨j, hj, hm⟩)
      · refine ⟨0, by simp, ?_⟩
        simpa using hm
      · refine ⟨j + 1, by simpa using Nat.succ_lt_succ hj, ?_⟩
        have harith : ((i + 1 + j : Nat) : Int) = ((i + (j + 1) : Nat) : Int) := by
          push_cast
          ring
        rw [harith] at hm
        simpa using hm
    · rintro ⟨j, hj, hm⟩
      cases j with
      | zero =>
        left
        simpa using hm
      | succ j' =>
        right
        refine ⟨j', by simp only [List.length_cons] at hj; omega, ?_⟩
        have harith : ((i + (j' + 1) : Nat) : Int)
            = ((i + 1 + j' : Nat) : Int) := by
          push_cast
          ring
        rw [← harith]
        simpa using hm

theorem sizeOf_entry_lt (es : List (String × Value)) (k : String)
    (c : Value) (hm : (k, c) ∈ es) :
    sizeOf c < sizeOf (Value.vmap es) := by
  have h1 := List.sizeOf_lt_of_mem hm
  have h2 : sizeOf (k, c) = 1 + sizeOf k + sizeOf c :=
    Prod.mk.sizeOf_spec k c
  simp only [Value.vmap.sizeOf_spec]
  omega

theorem sizeOf_elem_lt (xs : List Value) (c : Value) (hm : c ∈ xs) :
    sizeOf c < sizeOf (Value.vslice xs) := by
  have h1 := List.sizeOf_lt_of_mem hm
  simp only [Value.vslice.sizeOf_spec]
  omega

theorem extendMap_append (p : Path) (k : String) (r : Path) :
    (Path.ExtendMap p k) ++ r = p ++ ⟨pcMapKey, k, -1⟩ :: r := by
  simp [Path.ExtendMap, Path.Extend]

theorem extendSlice_append (p : Path) (i : Int) (r : Path) :
    (Path.ExtendSlice p i) ++ r = p ++ ⟨pcSliceIdx, "", i⟩ :: r := by
  simp [Path.ExtendSlice, Path.Extend]

/-- Unfolding subNode at a canonical map-key component. -/
theorem subNode_cons_map (es : List (String × Value)) (k : String)
    (r : Path) :
    subNode (.vmap es) (⟨pcMapKey, k, -1⟩ :: r)
      = match lookupEntries es k with
        | some c => subNode c r
        | none => none := by
  simp [subNode]

/-- Unfolding subNode at a canonical in-bounds slice component. -/
theorem subNode_cons_slice (xs : List Value) (j : Nat)
    (hj : j < xs.length) (r : Path) :
    subNode (.vslice xs) (⟨pcSliceIdx, "", (j : Int)⟩ :: r)
      = subNode (xs.get ⟨j, hj⟩) r := by
  simp only [subNode]
  have h1 : (j : Int) < (xs.length : Int) := by omega
  rw [dif_pos ⟨trivial, trivial, by omega, h1⟩]
  rfl

/-- Rejected component shapes of subNode on a map node. -/
theorem subNode_cons_map_none (es : List (String × Value))
    (T : pathComponentType) (K : String) (I : Int) (r : Path)
    (hcond : ¬(T = pcMapKey ∧ I = -1)) :
    subNode (.vmap es) (⟨T, K, I⟩ :: r) = none := by
  simp only [subNode]
  rw [if_neg]
  simpa using hcond

/-- Rejected component shapes of subNode on a slice node. -/
theorem subNode_cons_slice_none (xs : List Value)
    (T : pathComponentType) (K : String) (I : Int) (r : Path)
    (hcond : ¬(T = pcSliceIdx ∧ K = "" ∧ 0 ≤ I ∧ I < (xs.length : Int))) :
    subNode (.vslice xs) (⟨T, K, I⟩ :: r) = none := by
  simp only [subNode]
  rw [dif_neg]
  simpa using hcond

/-- Every observer call of the walker reports a node reachable at its
path: the visited pair (q, w) satisfies q = p ++ r with the subtree at
r in the walked value being w. Needs well-formedness: with duplicate
map keys the lookup finds only the first binding. -/
theorem visits_subNode : ∀ (n : Nat) (v : Value), sizeOf v ≤ n →
    wfValue v = true → ∀ (p q : Path) (w : Value),
      (q, w) ∈ walkFullVisits v p →
      ∃ r, q = p ++ r ∧ subNode v r = some w := by
  intro n
  induction n using Nat.strong_induction_on with
  | _ n ih =>
    intro v hsz hwf p q w hm
    cases v with
    | vmap es =>
      rw [show walkFullVisits (.vmap es) p
          = (p, .vmap es) :: mapVisits es p from rfl] at hm
      rcases List.mem_cons.mp hm with he | hm'
      · obtain ⟨hq, hw⟩ := Prod.mk.injEq .. ▸ he
        exact ⟨[], by simp [hq], by rw [← hw]; rfl⟩
      · rw [mem_mapVisits] at hm'
        obtain ⟨k, c, hkc, hmc⟩ := hm'
        have hcsz : sizeOf c < sizeOf (Value.vmap es) :=
          sizeOf_entry_lt es k c hkc
        have hwfc : wfValue c = true :=
          wfEntries_mem es k c (wf_vmap es hwf).2 hkc
        obtain ⟨r', hq, hsub⟩ :=
          ih (sizeOf c) (by omega) c le_rfl hwfc (p.ExtendMap k) q w hmc
        refine ⟨⟨pcMapKey, k, -1⟩ :: r', ?_, ?_⟩
        · rw [hq, extendMap_append]
        · rw [subNode_cons_map,
            lookupEntries_of_nodup es k c (wf_vmap es hwf).1 hkc]
          exact hsub
    | vslice xs =>
      rw [show walkFullVisits (.vslice xs) p
          = (p, .vslice xs) :: sliceVisits xs p 0 from rfl] at hm
      rcases List.mem_cons.mp hm with he | hm'
      · obtain ⟨hq, hw⟩ := Prod.mk.injEq .. ▸ he
        exact ⟨[], by simp [hq], by rw [← hw]; rfl⟩
      · rw [mem_sliceVisits] at hm'
        obtain ⟨j, hj, hmc⟩ := hm'
        have hcm : xs.get ⟨j, hj⟩ ∈ xs := List.get_mem xs j hj
        have hcsz : sizeOf (xs.get ⟨j, hj⟩) < sizeOf (Value.vslice xs) :=
          sizeOf_elem_lt xs _ hcm
        have hwfc : wfValue (xs.get ⟨j, hj⟩) = true :=
          wfList_mem xs _ (by simpa [wfValue] using hwf) hcm
        obtain ⟨r', hq, hsub⟩ :=
          ih (sizeOf (xs.get ⟨j, hj⟩)) (by omega) _ le_rfl hwfc
            (p.ExtendSlice ((0 + j : Nat) : Int)) q w hmc
        refine ⟨⟨pcSliceIdx, "", (j : Int)⟩ :: r', ?_, ?_⟩
        · rw [hq, extendSlice_append]
          norm_num
        · rw [subNode_cons_slice xs j hj r']
          exact hsub
    | vnull =>
      obtain ⟨hq, hw⟩ : q = p ∧ w = Value.vnull := by
        simpa [walkFullVisits] using hm
      exact ⟨[], by simp [hq], by rw [hw]; rfl⟩
    | vint a =>
      obtain ⟨hq, hw⟩ : q = p ∧ w = Value.vint a := by
        simpa [walkFullVisits] using hm
      exact ⟨[], by simp [hq], by rw [hw]; rfl⟩
    | vstr a =>
      obtain ⟨hq, hw⟩ : q = p ∧ w = Value.vstr a := by
        simpa [walkFullVisits] using hm
      exact ⟨[], by simp [hq], by rw [hw]; rfl⟩
    | vbool a =>
      obtain ⟨hq, hw⟩ : q = p ∧ w = Value.vbool a := by
        simpa [walkFullVisits] using hm
      exact ⟨[], by simp [hq], by rw [hw]; rfl⟩
    | visDef d =>
      obtain ⟨hq, hw⟩ : q = p ∧ w = Value.visDef d := by
        simpa [walkFullVisits] using hm
      exact ⟨[], by simp [hq], by rw [hw]; rfl⟩

/-- Conversely, every node reachable at a canonical path is visited by
the walker. -/
theorem subNode_visits : ∀ (r : Path) (v w : Value),
    subNode v r = some w → ∀ p, (p ++ r, w) ∈ walkFullVisits v p := by
  intro r
  induction r with
  | nil =>
    intro v w h p
    have hw : v = w := by simpa [subNode] using h
    subst hw
    cases v <;> simp [walkFullVisits]
  | cons pc rest ih =>
    intro v w h p
    obtain ⟨T, K, I⟩ := pc
    cases v with
    | vmap es =>
      by_cases hcond : T = pcMapKey ∧ I = -1
      · obtain ⟨hT, hI⟩ := hcond
        subst hT
        subst hI
        rw [subNode_cons_map] at h
        cases hle : lookupEntries es K with
        | none => rw [hle] at h; simp at h
        | some c =>
          rw [hle] at h
          have hmem := ih c w h (p.ExtendMap K)
          rw [extendMap_append] at hmem
          rw [show walkFullVisits (Value.vmap es) p
              = (p, Value.vmap es) :: mapVisits es p from rfl]
          apply List.mem_cons_of_mem
          rw [mem_mapVisits]
          exact ⟨K, c, lookupEntries_mem es K c hle, hmem⟩
      · rw [subNode_cons_map_none es T K I rest hcond] at h
        simp at h
    | vslice xs =>
      by_cases hcond : T = pcSliceIdx ∧ K = "" ∧ 0 ≤ I
          ∧ I < (xs.length : Int)
      · obtain ⟨hT, hK, hnn, hlt⟩ := hcond
        subst hT
        subst hK
        have hjlt : I.toNat < xs.length := by omega
        have hId : (⟨pcSliceIdx, "", I⟩ : pathComponent)
            = ⟨pcSliceIdx, "", ((I.toNat : Nat) : Int)⟩ := by
          have : I = ((I.toNat : Nat) : Int) := by omega
          rw [← this]
        rw [hId] at h ⊢
        rw [subNode_cons_slice xs I.toNat hjlt rest] at h
        have hmem := ih _ w h (p.ExtendSlice ((I.toNat : Nat) : Int))
        rw [extendSlice_append] at hmem
        rw [show walkFullVisits (Value.vslice xs) p
            = (p, Value.vslice xs) :: sliceVisits xs p 0 from rfl]
        apply List.mem_cons_of_mem
        rw [mem_sliceVisits]
        refine ⟨I.toNat, hjlt, ?_⟩
        simpa using hmem
      · rw [subNode_cons_slice_none xs T K I rest hcond] at h
        simp at h
    | vnull => simp [subNode] at h
    | vint a => simp [subNode] at h
    | vstr a => simp [subNode] at h
    | vbool a => simp [subNode] at h
    | visDef d => simp [subNode] at h

/-- The walker never visits two nodes at the same path (given
well-formedness): the head is shorter than every child path, sibling
subtrees extend the base path with distinct components. Stated for the
three mutual walk functions at once. -/
theorem visits_nodup_all : ∀ n : Nat,
    (∀ v : Value, sizeOf v ≤ n → wfValue v = true →
      ∀ p, ((walkFullVisits v p).map fun pv => pv.1).Nodup)
    ∧ (∀ es : List (String × Value), sizeOf es ≤ n →
      wfEntries es = true → (es.map fun kv => kv.1).Nodup →
      ∀ p, ((mapVisits es p).map fun pv => pv.1).Nodup)
    ∧ (∀ xs : List Value, sizeOf xs ≤ n → wfList xs = true →
      ∀ p i, ((sliceVisits xs p i).map fun pv => pv.1).Nodup) := by
  intro n
  induction n using Nat.strong_induction_on with
  | _ n ih =>
    refine ⟨?_, ?_, ?_⟩
    · intro v hsz hwf p
      cases v with
      | vmap es =>
        rw [show walkFullVisits (.vmap es) p
            = (p, .vmap es) :: mapVisits es p from rfl]
        rw [List.map_cons, List.nodup_cons]
        constructor
        · intro hmem
          rw [List.mem_map] at hmem
          obtain ⟨⟨q, w⟩, hqw, hq⟩ := hmem
          rw [mem_mapVisits] at hqw
          obtain ⟨k, c, hkc, hm⟩ := hqw
          have hwfc := wfEntries_mem es k c (wf_vmap es hwf).2 hkc
          obtain ⟨r, hr, _⟩ :=
            visits_subNode (sizeOf c) c le_rfl hwfc (p.ExtendMap k) q w hm
          rw [extendMap_append] at hr
          apply_fun List.length at hq
          rw [hr] at hq
          simp at hq
        · have hes : sizeOf es < n := by
            have : sizeOf es < sizeOf (Value.vmap es) := by
              simp [Value.vmap.sizeOf_spec]
            omega
          exact (ih (sizeOf es) hes).2.1 es le_rfl (wf_vmap es hwf).2
            (wf_vmap es hwf).1 p
      | vslice xs =>
        rw [show walkFullVisits (.vslice xs) p
            = (p, .vslice xs) :: sliceVisits xs p 0 from rfl]
        rw [List.map_cons, List.nodup_cons]
        constructor
        · intro hmem
          rw [List.mem_map] at hmem
          obtain ⟨⟨q, w⟩, hqw, hq⟩ := hmem
          rw [mem_sliceVisits] at hqw
          obtain ⟨j, hj, hm⟩ := hqw
          have hwfc := wfList_mem xs _ (by simpa [wfValue] using hwf)
            (List.get_mem xs j hj)
          obtain ⟨r, hr, _⟩ :=
            visits_subNode (sizeOf (xs.get ⟨j, hj⟩)) _ le_rfl hwfc
              (p.ExtendSlice ((0 + j : Nat) : Int)) q w hm
          rw [extendSlice_append] at hr
          apply_fun List.length at hq
          rw [hr] at hq
          simp at hq
        · have hxs : sizeOf xs < n := by
            have : sizeOf xs < sizeOf (Value.vslice xs) := by
              simp [Value.vslice.sizeOf_spec]
            omega
          exact (ih (sizeOf xs) hxs).2.2 xs le_rfl
            (by simpa [wfValue] using hwf) p 0
      | vnull => simp [walkFullVisits]
      | vint a => simp [walkFullVisits]
      | vstr a => simp [walkFullVisits]
      | vbool a => simp [walkFullVisits]
      | visDef d => simp [walkFullVisits]
    · intro es hsz hwf hnd p
      cases es with
      | nil => simp [mapVisits]
      | cons kv rest =>
        obtain ⟨k, c⟩ := kv
        simp only [wfEntries, Bool.and_eq_true] at hwf
        simp only [List.map_cons, List.nodup_cons] at hnd
        rw [show mapVisits ((k, c) :: rest) p
            = walkFullVisits c (p.ExtendMap k) ++ mapVisits rest p
            from rfl]
        rw [List.map_append, List.nodup_append]
        have hsc : sizeOf c < n := by
          have h2 : sizeOf (k, c) = 1 + sizeOf k + sizeOf c :=
            Prod.mk.sizeOf_spec k c
          have h3 := List.sizeOf_lt_of_mem
            (List.mem_cons_self (k, c) rest)
          omega
        have hsr : sizeOf rest < n := by
          have h3 : sizeOf ((k, c) :: rest)
              = 1 + sizeOf (k, c) + sizeOf rest :=
            List.cons.sizeOf_spec (k, c) rest
          omega
        refine ⟨(ih (sizeOf c) hsc).1 c le_rfl hwf.1 _,
          (ih (sizeOf rest) hsr).2.1 rest le_rfl hwf.2 hnd.2 p, ?_⟩
        intro q hq1 hq2
        rw [List.mem_map] at hq1 hq2
        obtain ⟨⟨q1, w1⟩, hm1, he1⟩ := hq1
        obtain ⟨⟨q2, w2⟩, hm2, he2⟩ := hq2
        obtain ⟨r1, hr1, _⟩ :=
          visits_subNode (sizeOf c) c le_rfl hwf.1 (p.ExtendMap k)
            q1 w1 hm1
        rw [mem_mapVisits] at hm2
        obtain ⟨k', c', hk'c', hm2'⟩ := hm2
        have hwfc' := wfEntries_mem rest k' c' hwf.2 hk'c'
        obtain ⟨r2, hr2, _⟩ :=
          visits_subNode (sizeOf c') c' le_rfl hwfc' (p.ExtendMap k')
            q2 w2 hm2'
        rw [extendMap_append] at hr1 hr2
        have hqq : q1 = q2 := he1.trans he2.symm
        have hcomp : (⟨pcMapKey, k, -1⟩ : pathComponent) :: r1
            = ⟨pcMapKey, k', -1⟩ :: r2 :=
          List.append_cancel_left ((hr1.symm.trans (hqq.trans hr2)))
        have hkk : k = k' := by
          have := (List.cons.injEq .. ▸ hcomp).1
          exact (pathComponent.mk.injEq .. ▸ this).2.1
        subst hkk
        exact hnd.1 (List.mem_map.mpr ⟨(k, c'), hk'c', rfl⟩)
    · intro xs hsz hwf p i
      cases xs with
      | nil => simp [sliceVisits]
      | cons c rest =>
        simp only [wfList, Bool.and_eq_true] at hwf
        rw [show sliceVisits (c :: rest) p i
            = walkFullVisits c (p.ExtendSlice (i : Int))
              ++ sliceVisits rest p (i + 1) from rfl]
        rw [List.map_append, List.nodup_append]
        have hsc : sizeOf c < n := by
          have := List.sizeOf_lt_of_mem (List.mem_cons_self c rest)
          omega
        have hsr : sizeOf rest < n := by
          have h3 : sizeOf (c :: rest) = 1 + sizeOf c + sizeOf rest :=
            List.cons.sizeOf_spec c rest
          omega
        refine ⟨(ih (sizeOf c) hsc).1 c le_rfl hwf.1 _,
          (ih (sizeOf rest) hsr).2.2 rest le_rfl hwf.2 p (i + 1), ?_⟩
        intro q hq1 hq2
        rw [List.mem_map] at hq1 hq2
        obtain ⟨⟨q1, w1⟩, hm1, he1⟩ := hq1
        obtain ⟨⟨q2, w2⟩, hm2, he2⟩ := hq2
        obtain ⟨r1, hr1, _⟩ :=
          visits_subNode (sizeOf c) c le_rfl hwf.1
            (p.ExtendSlice (i : Int)) q1 w1 hm1
        rw [mem_sliceVisits] at hm2
        obtain ⟨j, hj, hm2'⟩ := hm2
        have hwfc' := wfList_mem rest _ hwf.2 (List.get_mem rest j hj)
        obtain ⟨r2, hr2, _⟩ :=
          visits_subNode (sizeOf (rest.get ⟨j, hj⟩)) _ le_rfl hwfc'
            (p.ExtendSlice ((i + 1 + j : Nat) : Int)) q2 w2 hm2'
        rw [extendSlice_append] at hr1 hr2
        have hqq : q1 = q2 := he1.trans he2.symm
        have hcomp : (⟨pcSliceIdx, "", (i : Int)⟩ : pathComponent) :: r1
            = ⟨pcSliceIdx, "", ((i + 1 + j : Nat) : Int)⟩ :: r2 :=
          List.append_cancel_left ((hr1.symm.trans (hqq.trans hr2)))
        have hii : (i : Int) = ((i + 1 + j : Nat) : Int) := by
          have := (List.cons.injEq .. ▸ hcomp).1
          exact (pathComponent.mk.injEq .. ▸ this).2.2
        omega

/-- The root-level walk is contained in the full walk started at the
empty path. -/
theorem walkVisits_sub (v : Value) (q : Path) (w : Value)
    (hm : (q, w) ∈ walkVisits v) : (q, w) ∈ walkFullVisits v [] := by
  cases v with
  | vmap es => exact List.mem_cons_of_mem _ hm
  | vslice xs => exact List.mem_cons_of_mem _ hm
  | vnull => exact hm
  | vint a => exact hm
  | vstr a => exact hm
  | vbool a => exact hm
  | visDef d => exact hm

/-- What one observer call contributes: nothing for a non-empty
collection, otherwise one flat validator carrying the visited path. -/
theorem observeNode_mem (q : Path) (w : Value) (fv : flatValidator)
    (h : fv ∈ observeNode q w) :
    isNonEmptyCollection w = false ∧ fv.path = q := by
  cases w with
  | vnull =>
    refine ⟨rfl, ?_⟩
    have he : fv = ⟨q, IsEqual .vnull⟩ := by
      simpa [observeNode, isNonEmptyCollection] using h
    rw [he]
  | vint a =>
    refine ⟨rfl, ?_⟩
    have he : fv = ⟨q, IsEqual (.vint a)⟩ := by
      simpa [observeNode, isNonEmptyCollection] using h
    rw [he]
  | vstr a =>
    refine ⟨rfl, ?_⟩
    have he : fv = ⟨q, IsEqual (.vstr a)⟩ := by
      simpa [observeNode, isNonEmptyCollection] using h
    rw [he]
  | vbool a =>
    refine ⟨rfl, ?_⟩
    have he : fv = ⟨q, IsEqual (.vbool a)⟩ := by
      simpa [observeNode, isNonEmptyCollection] using h
    rw [he]
  | visDef d =>
    refine ⟨rfl, ?_⟩
    have he : fv = ⟨q, d⟩ := by
      simpa [observeNode, isNonEmptyCollection] using h
    rw [he]
  | vmap es =>
    by_cases hne : es.isEmpty
    · refine ⟨by simp [isNonEmptyCollection, hne], ?_⟩
      have he : fv = ⟨q, IsEqual (.vmap es)⟩ := by
        simpa [observeNode, isNonEmptyCollection, hne] using h
      rw [he]
    · simp [observeNode, isNonEmptyCollection, hne] at h
  | vslice xs =>
    by_cases hne : xs.isEmpty
    · refine ⟨by simp [isNonEmptyCollection, hne], ?_⟩
      have he : fv = ⟨q, IsEqual (.vslice xs)⟩ := by
        simpa [observeNode, isNonEmptyCollection, hne] using h
      rw [he]
    · simp [observeNode, isNonEmptyCollection, hne] at h

/-- A visit at a different path contributes nothing that survives the
path filter. -/
theorem filter_obs_ne (q : Path) (w : Value) (p : Path) (hne : q ≠ p) :
    (observeNode q w).filter (fun fv => decide (fv.path = p)) = [] := by
  rw [List.filter_eq_nil_iff]
  intro fv hfv
  have := (observeNode_mem q w fv hfv).2
  simp [this, hne]

/-- Visits whose paths all differ from p contribute nothing that
survives the path filter. -/
theorem filter_flatMap_none (L : List (Path × Value)) (p : Path)
    (hnp : ∀ pv ∈ L, pv.1 ≠ p) :
    ((L.flatMap fun pv => observeNode pv.1 pv.2).filter
        fun fv => decide (fv.path = p)) = [] := by
  induction L with
  | nil => rfl
  | cons hd tl ih =>
    rw [List.flatMap_cons, List.filter_append,
      filter_obs_ne hd.1 hd.2 p (hnp hd (by simp)),
      ih fun pv hpv => hnp pv (by simp [hpv])]
    rfl

/-- Claim C6: for every well-formed schema tree with a non-empty map
or slice at some canonical path, the compiled schema holds no flat
validator at that path; every flat validator whose path extends it
lies at a strictly longer path. -/
theorem c6_no_flat_at_container_path (s : Value) (p : Path) (c : Value)
    (hwf : wfValue s = true) (hsub : subNode s p = some c)
    (hcoll : isNonEmptyCollection c = true) :
    (∀ fv ∈ flatsOf s, fv.path ≠ p)
    ∧ ∀ fv ∈ flatsOf s, p <+: fv.path → p.length < fv.path.length := by
  have key : ∀ fv ∈ flatsOf s, fv.path ≠ p := by
    intro fv hfv heq
    simp only [flatsOf] at hfv
    rw [List.mem_flatMap] at hfv
    obtain ⟨⟨q, w⟩, hqw, hobs⟩ := hfv
    obtain ⟨hwcoll, hpath⟩ := observeNode_mem q w fv hobs
    have hfull := walkVisits_sub s q w hqw
    obtain ⟨r, hr, hsubq⟩ :=
      visits_subNode (sizeOf s) s le_rfl hwf [] q w hfull
    rw [List.nil_append] at hr
    subst hr
    have hqp : q = p := hpath.symm.trans heq
    subst hqp
    rw [hsub] at hsubq
    have hwc : c = w := by simpa using hsubq
    rw [← hwc] at hwcoll
    rw [hcoll] at hwcoll
    exact absurd hwcoll (by simp)
  refine ⟨key, fun fv hfv hpre => ?_⟩
  rcases Nat.lt_or_ge p.length fv.path.length with hlt | hge
  · exact hlt
  · exact absurd (hpre.eq_of_length
      (Nat.le_antisymm hpre.length_le hge)).symm (key fv hfv)

/-- Witness for C6 at the schema with a non-empty map at path a. -/
theorem c6_witness :
    flatsOf wSchema6
        = [⟨[⟨pcMapKey, "a", -1⟩, ⟨pcMapKey, "b", -1⟩],
            IsEqual (.vint 1)⟩]
    ∧ (⟨[⟨pcMapKey, "a", -1⟩, ⟨pcMapKey, "b", -1⟩],
          IsEqual (.vint 1)⟩ : flatValidator).path
        ≠ [⟨pcMapKey, "a", -1⟩] :=
  ⟨by decide,
    (c6_no_flat_at_container_path wSchema6 [⟨pcMapKey, "a", -1⟩]
        (.vmap [("b", .vint 1)]) (by decide) (by decide) (by decide)).1
      _ (by decide)⟩

/-- Claim C7 (amended): a well-formed schema with an empty map or
slice at a canonical non-root path compiles to exactly one flat
validator at that path, the deep-equality check against the empty
collection, and that check fails on every present value other than the
empty collection itself (non-empty or different kind). At the root the
property fails: walking an empty top-level collection observes
nothing. -/
theorem c7_empty_collection_leaf (s : Value) (p : Path) (c : Value)
    (hwf : wfValue s = true) (hsub : subNode s p = some c)
    (hc : c = .vmap [] ∨ c = .vslice []) (hp : p ≠ []) :
    ((flatsOf s).filter fun fv => decide (fv.path = p))
        = [⟨p, IsEqual c⟩]
    ∧ ∀ av : Value, av ≠ c →
        ((IsEqual c).Check p (some av) true).succeeded = false := by
  constructor
  · -- the visit at p exists
    have hfull : (p, c) ∈ walkFullVisits s [] := by
      have := subNode_visits p s c hsub []
      simpa using this
    -- s is a container: p is nonempty so subNode dispatched on a
    -- map or slice
    obtain ⟨pc, rest, rfl⟩ : ∃ pc rest, p = pc :: rest := by
      cases p with
      | nil => exact absurd rfl hp
      | cons pc rest => exact ⟨pc, rest, rfl⟩
    have hvisits : (pc :: rest, c) ∈ walkVisits s
        ∧ walkFullVisits s [] = ([], s) :: walkVisits s := by
      cases s with
      | vmap es =>
        refine ⟨?_, rfl⟩
        rcases List.mem_cons.mp hfull with he | hm
        · exact absurd (congrArg Prod.fst he) (by simp)
        · exact hm
      | vslice xs =>
        refine ⟨?_, rfl⟩
        rcases List.mem_cons.mp hfull with he | hm
        · exact absurd (congrArg Prod.fst he) (by simp)
        · exact hm
      | vnull => simp [subNode] at hsub
      | vint a => simp [subNode] at hsub
      | vstr a => simp [subNode] at hsub
      | vbool a => simp [subNode] at hsub
      | visDef d => simp [subNode] at hsub
    obtain ⟨hmem, hconsEq⟩ := hvisits
    have hnodup : ((walkVisits s).map fun pv => pv.1).Nodup := by
      have hall := (visits_nodup_all (sizeOf s)).1 s le_rfl hwf []
      rw [hconsEq] at hall
      rw [List.map_cons] at hall
      exact (List.nodup_cons.mp hall).2
    obtain ⟨L1, L2, hL⟩ := List.append_of_mem hmem
    have hne_paths : ∀ pv ∈ L1 ++ L2, pv.1 ≠ pc :: rest := by
      have hmid : ((L1 ++ (pc :: rest, c) :: L2).map
          fun pv => pv.1).Nodup := by
        rw [← hL]
        exact hnodup
      rw [List.map_append, List.map_cons] at hmid
      rw [List.nodup_middle] at hmid
      have hnotmem := (List.nodup_cons.mp hmid).1
      intro pv hpv heq
      apply hnotmem
      rw [← List.map_append]
      exact List.mem_map.mpr ⟨pv, hpv, heq⟩
    simp only [flatsOf]
    rw [hL, List.flatMap_append, List.flatMap_cons, List.filter_append,
      List.filter_append,
      filter_flatMap_none L1 (pc :: rest)
        fun pv hpv => hne_paths pv (by simp [hpv]),
      filter_flatMap_none L2 (pc :: rest)
        fun pv hpv => hne_paths pv (by simp [hpv])]
    have hobs : (observeNode (pc :: rest) c).filter
        (fun fv => decide (fv.path = pc :: rest))
        = [⟨pc :: rest, IsEqual c⟩] := by
      rcases hc with hc | hc <;> subst hc <;>
        simp [observeNode, isNonEmptyCollection, List.filter]
    rw [hobs]
    rfl
  · intro av hav
    have hbeq : (av == c) = false := by
      simp [hav]
    rcases hc with hc | hc <;> subst hc <;>
      simp [IsDef.Check, IsDef.Optional, IsDef.Checker, Checker.eval,
        IsEqual, SingleResult, ValidResult, Results.succeeded, hbeq]

/-- Witness for C7 at the schema with an empty map at path a. -/
theorem c7_witness :
    ((flatsOf wSchema7).filter
        fun fv => decide (fv.path = [⟨pcMapKey, "a", -1⟩]))
      = [⟨[⟨pcMapKey, "a", -1⟩], IsEqual (.vmap [])⟩] :=
  (c7_empty_collection_leaf wSchema7 [⟨pcMapKey, "a", -1⟩] (.vmap [])
    (by decide) (by decide) (Or.inl rfl) (by decide)).1

/-- Counterexample to C7 as stated: a schema that is itself the empty
map has the empty collection at the root path, yet compiles to zero
flat validators, not exactly one. -/
theorem c7_counterexample :
    subNode (Value.vmap []) [] = some (Value.vmap [])
    ∧ flatsOf (Value.vmap []) = [] :=
  ⟨by decide, by decide⟩

theorem lexLe_nil (l : List Char) : lexLe [] l = true := rfl

/-- The cons shape of byte-lexicographic comparison. -/
theorem lexLe_cons_iff (a b : Char) (as bs : List Char) :
    lexLe (a :: as) (b :: bs) = true
      ↔ a < b ∨ (a = b ∧ lexLe as bs = true) := by
  simp only [lexLe]
  by_cases h1 : a < b
  · simp [h1]
  · by_cases h2 : a = b
    · simp [h1, h2]
    · simp [h1, h2]

theorem lexLe_refl : ∀ l : List Char, lexLe l l = true
  | [] => rfl
  | c :: rest => by
    rw [lexLe_cons_iff]
    exact Or.inr ⟨rfl, lexLe_refl rest⟩

theorem lexLe_total : ∀ a b : List Char,
    lexLe a b = true ∨ lexLe b a = true
  | [], _ => Or.inl rfl
  | _ :: _, [] => Or.inr rfl
  | a :: as, b :: bs => by
    rw [lexLe_cons_iff, lexLe_cons_iff]
    rcases lt_trichotomy a b with h | h | h
    · exact Or.inl (Or.inl h)
    · rcases lexLe_total as bs with hr | hr
      · exact Or.inl (Or.inr ⟨h, hr⟩)
      · exact Or.inr (Or.inr ⟨h.symm, hr⟩)
    · exact Or.inr (Or.inl h)

theorem lexLe_trans : ∀ a b c : List Char,
    lexLe a b = true → lexLe b c = true → lexLe a c = true
  | [], _, _, _, _ => rfl
  | _ :: _, [], _, h1, _ => by simp [lexLe] at h1
  | _ :: _, _ :: _, [], _, h2 => by simp [lexLe] at h2
  | a :: as, b :: bs, c :: cs, h1, h2 => by
    rw [lexLe_cons_iff] at h1 h2 ⊢
    rcases h1 with h1 | ⟨h1e, h1r⟩
    · rcases h2 with h2 | ⟨h2e, _⟩
      · exact Or.inl (lt_trans h1 h2)
      · exact Or.inl (by rw [← h2e]; exact h1)
    · rcases h2 with h2 | ⟨h2e, h2r⟩
      · exact Or.inl (by rw [h1e]; exact h2)
      · exact Or.inr ⟨h1e.trans h2e, lexLe_trans as bs cs h1r h2r⟩

theorem lexLe_of_pref : ∀ a b : List Char,
    a.isPrefixOf b = true → lexLe a b = true
  | [], b, _ => lexLe_nil b
  | _ :: _, [], h => by simp [List.isPrefixOf] at h
  | a :: as, b :: bs, h => by
    simp only [List.isPrefixOf, Bool.and_eq_true, beq_iff_eq] at h
    rw [lexLe_cons_iff]
    exact Or.inr ⟨h.1, lexLe_of_pref as bs h.2⟩

/-- The ordering sandwich: a prefix of a larger string is a prefix of
everything between them. This is what makes the binary-search prefix
test of Strict complete. -/
theorem pref_of_between : ∀ a b c : List Char,
    lexLe a b = true → lexLe b c = true → a.isPrefixOf c = true →
      a.isPrefixOf b = true
  | [], b, _, _, _, _ => by cases b <;> rfl
  | a :: as, b, c, h1, h2, h3 => by
    cases c with
    | nil => simp [List.isPrefixOf] at h3
    | cons c cs =>
      cases b with
      | nil => simp [lexLe] at h1
      | cons b bs =>
        simp only [List.isPrefixOf, Bool.and_eq_true, beq_iff_eq] at h3 ⊢
        rw [lexLe_cons_iff] at h1 h2
        obtain ⟨hac, hpref⟩ := h3
        subst hac
        rcases h1 with h1 | ⟨h1e, h1r⟩
        · exfalso
          rcases h2 with h2 | ⟨h2e, _⟩
          · exact lt_asymm h1 h2
          · subst h2e
            exact lt_irrefl _ h1
        · subst h1e
          rcases h2 with h2 | ⟨h2e, h2r⟩
          · exact absurd h2 (lt_irrefl _)
          · exact ⟨rfl, pref_of_between as bs cs h1r h2r hpref⟩

instance : IsTrans String goLeR :=
  ⟨fun a b c h1 h2 => lexLe_trans a.data b.data c.data h1 h2⟩

instance : IsTotal String goLeR := ⟨fun a b => lexLe_total a.data b.data⟩

theorem sortStrings_sorted (l : List String) :
    (sortStrings l).Sorted goLeR :=
  List.sorted_insertionSort goLeR l

theorem mem_sortStrings (l : List String) (s : String) :
    s ∈ sortStrings l ↔ s ∈ l :=
  (List.perm_insertionSort goLeR l).mem_iff

theorem goHasPref_refl (s : String) : goHasPref s s = true := by
  simp [goHasPref, List.isPrefixOf_iff_prefix]

/-- Correctness of the binary-search prefix test: on a sorted list,
the entry at the insertion point of x has x as a prefix exactly when
some entry has x as a prefix. -/
theorem search_pref_iff (l : List String) (hs : l.Sorted goLeR)
    (x : String) :
    (∃ h : SearchStrings l x < l.length,
        goHasPref (l.get ⟨SearchStrings l x, h⟩) x = true)
      ↔ ∃ s ∈ l, goHasPref s x = true := by
  constructor
  · rintro ⟨h, hpref⟩
    exact ⟨l.get ⟨SearchStrings l x, h⟩, List.get_mem l _ _, hpref⟩
  · rintro ⟨s, hsmem, hpref⟩
    have hxs : goLe x s = true := lexLe_of_pref x.data s.data hpref
    have hex : ∃ t ∈ l, goLe x t = true := ⟨s, hsmem, hxs⟩
    have hlt : SearchStrings l x < l.length :=
      List.findIdx_lt_length_of_exists hex
    refine ⟨hlt, ?_⟩
    obtain ⟨j, hj⟩ := List.mem_iff_get.mp hsmem
    have hidxle : SearchStrings l x ≤ j.val := by
      by_contra hgt
      push_neg at hgt
      have hfalse := @List.not_of_lt_findIdx String
        (fun t => goLe x t) l j.val hgt
      rw [show l[j.val] = l.get j from by simp [List.get_eq_getElem],
        hj] at hfalse
      rw [hxs] at hfalse
      exact absurd hfalse (by simp)
    have hxidx : goLe x (l.get ⟨SearchStrings l x, hlt⟩) = true := by
      have := @List.findIdx_getElem String (fun t => goLe x t) l hlt
      simpa [List.get_eq_getElem] using this
    have hmid : goLe (l.get ⟨SearchStrings l x, hlt⟩) s = true := by
      rcases Nat.eq_or_lt_of_le hidxle with heq | hlt2
      · have : l.get ⟨SearchStrings l x, hlt⟩ = s := by
          rw [← hj]
          congr 1
          exact Fin.ext heq
        rw [this]
        exact lexLe_refl s.data
      · have hab : (⟨SearchStrings l x, hlt⟩ : Fin l.length) < j := hlt2
        have := hs.rel_get_of_lt hab
        rw [hj] at this
        exact this
    exact pref_of_between x.data
      (l.get ⟨SearchStrings l x, hlt⟩).data s.data hxidx hmid hpref

/-- The observer step of Strict, rewritten with the completeness of
the binary-search prefix test: skip when the path string is a key of
the live results, skip when some validated path string has it as a
prefix, otherwise merge the unexpected-key failure. -/
theorem strictStep_eq (vp : List String) (hs : vp.Sorted goLeR)
    (results : Results) (woi : Path × Value) :
    strictStep vp results woi
      = if results.Fields.any (fun kv => kv.1 = Path.String woi.1) then
          results
        else if vp.any (fun s => goHasPref s (Path.String woi.1)) then
          results
        else results.merge (StrictFailureResult woi.1) := by
  by_cases hex : (results.Fields.any fun kv => kv.1 = Path.String woi.1)
      = true
  · simp [strictStep, hex]
  · simp only [strictStep]
    rw [if_neg hex, if_neg hex]
    by_cases hany : (vp.any fun s => goHasPref s (Path.String woi.1))
        = true
    · rw [if_pos hany]
      rw [List.any_eq_true] at hany
      obtain ⟨hlt, hpref⟩ :=
        (search_pref_iff vp hs (Path.String woi.1)).mpr hany
      rw [dif_pos hlt, if_pos hpref]
    · rw [if_neg hany]
      by_cases hlt : SearchStrings vp (Path.String woi.1) < vp.length
      · rw [dif_pos hlt]
        have hnpref : ¬goHasPref
            (vp.get ⟨SearchStrings vp (Path.String woi.1), hlt⟩)
            (Path.String woi.1) = true := by
          intro hc
          apply hany
          rw [List.any_eq_true]
          exact (search_pref_iff vp hs (Path.String woi.1)).mp ⟨hlt, hc⟩
        rw [if_neg hnpref]
      · rw [dif_neg hlt]

/-- Merging one unexpected-key failure at a fresh path appends its
entry. -/
theorem merge_strictFailure (r : Results) (p : Path)
    (hnot : (r.Fields.any fun kv => kv.1 = Path.String p) = false) :
    (r.merge (StrictFailureResult p)).Fields
      = r.Fields ++ [(Path.String p, strictFailureVR)] := by
  show (r.recordStr (Path.String p) strictFailureVR).Fields = _
  simp [Results.recordStr, hnot]

/-- The walk loop of Strict, fully characterized: starting from a
report whose entries are the base entries followed by failures for the
already-flagged visits, folding the remaining visits appends failures
for exactly the uncovered remaining visits, provided the visited path
strings are pairwise distinct. -/
theorem strict_fold_inv (vp keys : List String) (hs : vp.Sorted goLeR)
    (hmm : ∀ s, s ∈ vp ↔ s ∈ keys) :
    ∀ (rem done : List (Path × Value)) (base acc : Results),
      base.Fields.map (fun kv => kv.1) = keys →
      ((done ++ rem).map fun pv => Path.String pv.1).Nodup →
      acc.Fields = base.Fields
        ++ (done.filter fun pv =>
              !(keys.any fun s => goHasPref s (Path.String pv.1))).map
            (fun pv => (Path.String pv.1, strictFailureVR)) →
      (rem.foldl (strictStep vp) acc).Fields
        = base.Fields
          ++ ((done ++ rem).filter fun pv =>
                !(keys.any fun s => goHasPref s (Path.String pv.1))).map
              (fun pv => (Path.String pv.1, strictFailureVR)) := by
  intro rem
  induction rem with
  | nil =>
    intro done base acc hbk hnd hacc
    simpa using hacc
  | cons pv rest ih =>
    intro done base acc hbk hnd hacc
    rw [List.foldl_cons, strictStep_eq vp hs acc pv]
    have hXnotdone : Path.String pv.1
        ∉ done.map fun q => Path.String q.1 := by
      rw [List.map_append, List.map_cons, List.nodup_middle] at hnd
      intro hc
      exact (List.nodup_cons.mp hnd).1 (List.mem_append_left _ hc)
    have hacckeys : ∀ y, y ∈ acc.Fields.map (fun kv => kv.1)
        ↔ y ∈ keys ∨ y ∈ (done.filter fun pv =>
            !(keys.any fun s => goHasPref s (Path.String pv.1))).map
            fun pv => Path.String pv.1 := by
      intro y
      rw [hacc, List.map_append, hbk, List.mem_append, List.map_map]
      rfl
    have hexact_iff :
        (acc.Fields.any fun kv => kv.1 = Path.String pv.1) = true
          ↔ Path.String pv.1 ∈ keys := by
      rw [List.any_eq_true]
      constructor
      · rintro ⟨kv, hkv, hkveq⟩
        rw [decide_eq_true_eq] at hkveq
        have hmem : kv.1 ∈ acc.Fields.map (fun kv => kv.1) :=
          List.mem_map.mpr ⟨kv, hkv, rfl⟩
        rw [hacckeys] at hmem
        rcases hmem with hmem | hmem
        · exact hkveq ▸ hmem
        · exfalso
          apply hXnotdone
          rw [List.mem_map] at hmem
          obtain ⟨pv', hpv', heq⟩ := hmem
          rw [List.mem_filter] at hpv'
          exact List.mem_map.mpr ⟨pv', hpv'.1, by rw [heq, hkveq]⟩
      · intro hXk
        rw [← hbk] at hXk
        rw [List.mem_map] at hXk
        obtain ⟨kv, hkv, heq⟩ := hXk
        refine ⟨kv, by rw [hacc]; exact List.mem_append_left _ hkv, ?_⟩
        rw [decide_eq_true_eq]
        exact heq
    have hcov : (vp.any fun s => goHasPref s (Path.String pv.1))
        = (keys.any fun s => goHasPref s (Path.String pv.1)) := by
      rw [Bool.eq_iff_iff, List.any_eq_true, List.any_eq_true]
      constructor
      · rintro ⟨s, hsm, hsp⟩
        exact ⟨s, (hmm s).mp hsm, hsp⟩
      · rintro ⟨s, hsm, hsp⟩
        exact ⟨s, (hmm s).mpr hsm, hsp⟩
    have hnd' : (((done ++ [pv]) ++ rest).map
        fun pv => Path.String pv.1).Nodup := by
      rw [List.append_assoc, List.singleton_append]
      exact hnd
    have hfinal : ((done ++ [pv]) ++ rest) = done ++ pv :: rest := by
      rw [List.append_assoc, List.singleton_append]
    by_cases hXk : Path.String pv.1 ∈ keys
    · rw [if_pos (hexact_iff.mpr hXk)]
      have hkeepF : (!(keys.any fun s =>
          goHasPref s (Path.String pv.1))) = false := by
        have : (keys.any fun s => goHasPref s (Path.String pv.1))
            = true := by
          rw [List.any_eq_true]
          exact ⟨Path.String pv.1, hXk, goHasPref_refl _⟩
        rw [this]
        rfl
      have hre := ih (done ++ [pv]) base acc hbk hnd' (by
        rw [hacc, List.filter_append]
        have : ([pv].filter fun pv =>
            !(keys.any fun s => goHasPref s (Path.String pv.1))) = [] := by
          simp [List.filter, hkeepF]
        rw [this, List.append_nil])
      rw [hre, hfinal]
    · rw [if_neg fun hc => hXk (hexact_iff.mp hc), hcov]
      by_cases hc : (keys.any fun s => goHasPref s (Path.String pv.1))
          = true
      · rw [if_pos hc]
        have hkeepF : (!(keys.any fun s =>
            goHasPref s (Path.String pv.1))) = false := by
          rw [hc]
          rfl
        have hre := ih (done ++ [pv]) base acc hbk hnd' (by
          rw [hacc, List.filter_append]
          have : ([pv].filter fun pv =>
              !(keys.any fun s =>
                goHasPref s (Path.String pv.1))) = [] := by
            simp [List.filter, hkeepF]
          rw [this, List.append_nil])
        rw [hre, hfinal]
      · rw [if_neg hc]
        have hexF : (acc.Fields.any fun kv => kv.1 = Path.String pv.1)
            = false := by
          rw [← Bool.not_eq_true]
          intro hcc
          exact hXk (hexact_iff.mp hcc)
        have hmf := merge_strictFailure acc pv.1 hexF
        have hkeepT : (!(keys.any fun s =>
            goHasPref s (Path.String pv.1))) = true := by
          cases hb : (keys.any fun s => goHasPref s (Path.String pv.1))
          · rfl
          · exact absurd hb hc
        have hre := ih (done ++ [pv]) base
          (acc.merge (StrictFailureResult pv.1)) hbk hnd' (by
            rw [hmf, hacc, List.filter_append]
            have : ([pv].filter fun pv =>
                !(keys.any fun s =>
                  goHasPref s (Path.String pv.1))) = [pv] := by
              simp [List.filter, hkeepT]
            rw [this, List.map_append, List.append_assoc]
            rfl)
        rw [hre, hfinal]

/-- Claim C1 (amended): provided the rendered strings of the visited
paths of the actual tree are pairwise distinct, the strict wrapper
keeps every lax entry and appends one "unexpected key" failure at
exactly the visited paths (intermediate containers included) whose
rendered string is a string-prefix of no recorded path string. -/
theorem c1_strict_prefix_coverage (laxValidator : Validator)
    (actual : Value)
    (hd : ((walkVisits actual).map fun pv => Path.String pv.1).Nodup) :
    (Strict laxValidator actual).Fields
      = (laxValidator actual).Fields
        ++ ((walkVisits actual).filter fun pv =>
              !(((laxValidator actual).Fields.map fun kv => kv.1).any
                 fun s => goHasPref s (Path.String pv.1))).map
            (fun pv => (Path.String pv.1, strictFailureVR)) := by
  have hres := strict_fold_inv
    (sortStrings ((laxValidator actual).Fields.map fun kv => kv.1))
    ((laxValidator actual).Fields.map fun kv => kv.1)
    (sortStrings_sorted _) (fun s => mem_sortStrings _ s)
    (walkVisits actual) [] (laxValidator actual) (laxValidator actual)
    rfl (by simpa using hd) (by simp)
  simpa using hres

/-- Counterexample to C1 as stated: the lax results record only
"q.rs"; the actual tree is \x7bq: \x7br: 1\x7d, m: \x7bn: 1\x7d\x7d.
The leaf q.r is uncovered in the path-descendant sense (the sole
recorded path, q.rs, is not a descendant of q.r, merely a
string-prefix extension), yet no failure is recorded at q.r; and the
intermediate container m, not a leaf, is flagged. -/
theorem c1_counterexample :
    ((Strict cexLax cexActual).Fields.map fun kv => kv.1)
        = ["q.rs", "m", "m.n"]
    ∧ walkPaths cexActual
        = [[⟨pcMapKey, "q", -1⟩],
           [⟨pcMapKey, "q", -1⟩, ⟨pcMapKey, "r", -1⟩],
           [⟨pcMapKey, "m", -1⟩],
           [⟨pcMapKey, "m", -1⟩, ⟨pcMapKey, "n", -1⟩]]
    ∧ ([⟨pcMapKey, "q", -1⟩, ⟨pcMapKey, "r", -1⟩] : Path).isPrefixOf
        [⟨pcMapKey, "q", -1⟩, ⟨pcMapKey, "rs", -1⟩] = false
    ∧ (Strict cexLax cexActual).lookupVR "q.r" = none
    ∧ (Strict cexLax cexActual).lookupVR "m" = some strictFailureVR :=
  ⟨by decide, by decide, by decide, by decide, by decide⟩

/-- Witness for the amended C1 at a lax validator recording "a" and
the actual tree \x7ba: 1, b: 2\x7d. -/
theorem c1_witness :
    (Strict wLax wActual).Fields
      = (wLax wActual).Fields
        ++ ((walkVisits wActual).filter fun pv =>
              !(((wLax wActual).Fields.map fun kv => kv.1).any
                 fun s => goHasPref s (Path.String pv.1))).map
            (fun pv => (Path.String pv.1, strictFailureVR)) :=
  c1_strict_prefix_coverage wLax wActual (by decide)

end lookslike
